import Mathlib

/-!
Verification of the pagination engine of `build_books.py` and the
reference-index post-processing of `build_codex_refs.py`.

Strings are embedded as `List Char` (one entry per code point, matching
Python's string model).  Python's whitespace set for `str.strip()` is
modelled by `isPyWs` (space, tab, newline, carriage return, vertical tab,
form feed).  Each definition in the first part of the file is a direct
translation of the corresponding Python function.
-/

set_option maxRecDepth 4000

abbrev Str := List Char

/-- Whitespace characters recognised by Python's `str.strip()` family
(restricted to the ASCII range actually used by the manuscripts). -/
def isPyWs (c : Char) : Bool :=
  (c == ' ') || (c == '\t') || (c == '\n') || (c == '\r') ||
  (c == Char.ofNat 11) || (c == Char.ofNat 12)

/-- Python `s.lstrip()`. -/
def lstripStr (s : Str) : Str := s.dropWhile isPyWs

/-- Python `s.rstrip()`. -/
def rstripStr (s : Str) : Str := (s.reverse.dropWhile isPyWs).reverse

/-- Python `s.strip()`. -/
def stripStr (s : Str) : Str := rstripStr (lstripStr s)

/-- Python `s.rstrip("\r")` as used on each raw manuscript line. -/
def rstripCR (s : Str) : Str := (s.reverse.dropWhile (· == '\r')).reverse

/-- Python `pre in`-position test `s.startswith(pre)`. -/
def startsWith (pre s : Str) : Bool := List.isPrefixOf pre s

/-- Python `text.split("\n")`. -/
def splitLines : Str → List Str
  | [] => [[]]
  | c :: rest =>
    if c = '\n' then [] :: splitLines rest
    else
      match splitLines rest with
      | [] => [[c]]
      | h :: t => (c :: h) :: t

/-- Python `"\n".join(lines)`. -/
def joinNl : List Str → Str
  | [] => []
  | [l] => l
  | l :: l' :: ls => l ++ '\n' :: joinNl (l' :: ls)

/-- The two-character blank-line separator `"\n\n"`. -/
def sepNN : Str := ['\n', '\n']

/-- Python `page.split("\n\n")`: left-to-right scan for the two-character
separator, non-overlapping occurrences. -/
def splitNN : Str → List Str
  | [] => [[]]
  | [c] => [[c]]
  | a :: b :: rest =>
    if a = '\n' ∧ b = '\n' then [] :: splitNN rest
    else
      match splitNN (b :: rest) with
      | [] => [[a]]
      | h :: t => (a :: h) :: t

/-- Python `"\n\n".join(parts)`. -/
def joinNN : List Str → Str
  | [] => []
  | [p] => p
  | p :: q :: ps => p ++ sepNN ++ joinNN (q :: ps)

/-- Sum of the lengths of a list of strings (a page's length attribute:
paragraph characters, not counting separators). -/
def sumLens (ps : List Str) : Nat := (ps.map List.length).sum

/-- Whether a string contains two consecutive newlines (a `"\n\n"` infix). -/
def hasNN : Str → Bool
  | a :: b :: rest => ((a == '\n') && (b == '\n')) || hasNN (b :: rest)
  | _ => false

/-! ## Constants of `build_books.py` -/

/-- Module constant `TARGET_CHARS_PER_PAGE` of `build_books.py`. -/
def TARGET_CHARS_PER_PAGE : Nat := 1000

/-- Module constant `MIN_CHARS_PER_PAGE` of `build_books.py`. -/
def MIN_CHARS_PER_PAGE : Nat := 450

/-- The forced page break sentinel line `"===PAGE==="`. -/
def pageSentinel : Str := "===PAGE===".toList

/-- The forced break token `"__PAGE_BREAK__"` interleaved by the splitter. -/
def pageBreakTok : Str := "__PAGE_BREAK__".toList

/-- The heading marker `"# "`. -/
def hashSpace : Str := ['#', ' ']

/-! ## `parse_paragraphs` -/

/-- One line of the loop body of `parse_paragraphs`: state is
`(paragraphs, current_lines)`. -/
def parseStep (st : List Str × List Str) (raw_line : Str) : List Str × List Str :=
  let paragraphs := st.1
  let current_lines := st.2
  let line := rstripCR raw_line
  if stripStr line = pageSentinel then
    ((if current_lines = [] then paragraphs
      else paragraphs ++ [stripStr (joinNl current_lines)]) ++ [pageBreakTok], [])
  else if stripStr line = [] then
    (if current_lines = [] then paragraphs
     else paragraphs ++ [stripStr (joinNl current_lines)], [])
  else
    (paragraphs, current_lines ++ [line])

/-- `parse_paragraphs` of `build_books.py`: raw manuscript text to a list of
paragraphs and `"__PAGE_BREAK__"` tokens. -/
def parse_paragraphs (text : Str) : List Str :=
  let st := (splitLines text).foldl parseStep ([], [])
  if st.2 = [] then st.1 else st.1 ++ [stripStr (joinNl st.2)]

/-! ## `build_pages_from_paragraphs` -/

/-- The heading test `para.lstrip().startswith("# ")` of the packer. -/
def is_heading (para : Str) : Bool := startsWith hashSpace (lstripStr para)

/-- Packer state: completed pages, the accumulating page's paragraphs, and
the running character count `current_len`. -/
structure PackSt where
  pages : List Str
  current : List Str
  current_len : Nat
  deriving DecidableEq

/-- One iteration of the paragraph loop of `build_pages_from_paragraphs`. -/
def packStep (st : PackSt) (para : Str) : PackSt :=
  if para = pageBreakTok then
    if st.current = [] then st
    else ⟨st.pages ++ [joinNN st.current], [], 0⟩
  else if is_heading para then
    let st1 : PackSt :=
      if st.current = [] then st
      else if st.pages ≠ [] ∧ st.current_len < MIN_CHARS_PER_PAGE then
        ⟨st.pages.dropLast ++ [joinNN [st.pages.getLastD [], joinNN st.current]], [], 0⟩
      else ⟨st.pages ++ [joinNN st.current], [], 0⟩
    ⟨st1.pages, [para], para.length⟩
  else
    if st.current ≠ [] ∧ st.current_len + para.length > TARGET_CHARS_PER_PAGE then
      ⟨st.pages ++ [joinNN st.current], [para], para.length⟩
    else
      ⟨st.pages, st.current ++ [para], st.current_len + para.length⟩

/-- The packing loop of `build_pages_from_paragraphs` including the final
flush, before the heading-only repair pass. -/
def packPages (paragraphs : List Str) : List Str :=
  let st := paragraphs.foldl packStep ⟨[], [], 0⟩
  if st.current = [] then st.pages else st.pages ++ [joinNN st.current]

/-- The block decomposition `[b for b in page.split("\n\n") if b.strip()]`
used by the repair pass. -/
def blocksOf (page : Str) : List Str :=
  (splitNN page).filter (fun b => ! (stripStr b).isEmpty)

/-- The repair pass's test: exactly one non-blank block, which is a heading. -/
def isHeadingOnlyPage (page : Str) : Bool :=
  match blocksOf page with
  | [b] => startsWith hashSpace (lstripStr b)
  | _ => false

/-- The repair pass's `while i < len(pages) - 1` loop of
`build_pages_from_paragraphs`, with its explicit index cursor. -/
def repairLoop (pages : List Str) (i : Nat) : List Str :=
  if h : i + 1 < pages.length then
    if isHeadingOnlyPage (pages.getD i []) then
      repairLoop ((pages.set i (pages.getD i [] ++ sepNN ++ pages.getD (i + 1) [])).eraseIdx (i + 1)) i
    else repairLoop pages (i + 1)
  else pages
termination_by pages.length - i
decreasing_by
  · have h1 : (pages.set i (pages.getD i [] ++ sepNN ++ pages.getD (i + 1) [])).length
        = pages.length := by simp
    have h2 : ((pages.set i (pages.getD i [] ++ sepNN ++ pages.getD (i + 1) [])).eraseIdx
        (i + 1)).length = pages.length - 1 := by
      rw [List.length_eraseIdx, h1, if_pos h]
    omega
  · omega

/-- `build_pages_from_paragraphs` of `build_books.py`: packing loop followed
by the heading-only repair pass. -/
def build_pages_from_paragraphs (paragraphs : List Str) : List Str :=
  repairLoop (packPages paragraphs) 0

/-- Fuel-indexed version of the repair loop, used to state its iteration
bound and to evaluate the engine on concrete inputs. -/
def repairFuel : Nat → List Str → Nat → List Str
  | 0, pages, _ => pages
  | n + 1, pages, i =>
    if i + 1 < pages.length then
      if isHeadingOnlyPage (pages.getD i []) then
        repairFuel n ((pages.set i (pages.getD i [] ++ sepNN ++ pages.getD (i + 1) [])).eraseIdx (i + 1)) i
      else repairFuel n pages (i + 1)
    else pages

/-- The whole engine with the fuel-indexed repair pass (fuel: the page count
entering the repair pass). -/
def buildFuel (paragraphs : List Str) : List Str :=
  let pages := packPages paragraphs
  repairFuel pages.length pages 0

/-! ## Inline renderer (`inline_format`, `block_to_html`) -/

/-- Per-character expansion of Python `html.escape(text)` (quote=True). -/
def escapeChar (c : Char) : Str :=
  if c = '&' then "&amp;".toList
  else if c = '<' then "&lt;".toList
  else if c = '>' then "&gt;".toList
  else if c = Char.ofNat 34 then "&quot;".toList
  else if c = Char.ofNat 39 then "&#x27;".toList
  else [c]

/-- Python `html.escape(text)`. -/
def html_escape (s : Str) : Str := (s.map escapeChar).flatten

/-- A run of `n` literal asterisks. -/
def stars (n : Nat) : Str := List.replicate n '*'

/-- Match the regex `\*…\*([^*]+)\*…\*` (with `n` asterisks on each side)
at the start of `s`: returns the captured run and the rest of the input.
The greedy `[^*]+` cannot backtrack usefully, so it is a maximal run of
non-asterisk characters followed by `n` asterisks. -/
def matchStars (n : Nat) (s : Str) : Option (Str × Str) :=
  if List.isPrefixOf (stars n) s then
    let t := s.drop n
    let run := t.takeWhile (fun c => ! (c == '*'))
    if run = [] then none
    else
      let u := t.drop run.length
      if List.isPrefixOf (stars n) u then some (run, u.drop n)
      else none
  else none

/-- Left-to-right scan of Python `re.sub` for the asterisk patterns: at each
position try a match; on success emit `pre ++ captured ++ post` and resume
after the match, otherwise keep the character.  Fuel is the input length;
each step consumes at least one character, so the fuel never runs out. -/
def subStarsFuel (n : Nat) (pre post : Str) : Nat → Str → Str
  | 0, s => s
  | _ + 1, [] => []
  | fuel + 1, c :: rest =>
    match matchStars n (c :: rest) with
    | some (run, after) => pre ++ run ++ post ++ subStarsFuel n pre post fuel after
    | none => c :: subStarsFuel n pre post fuel rest

/-- Python `re.sub(pattern_n, pre \1 post, s)` for the asterisk patterns. -/
def subStars (n : Nat) (pre post : Str) (s : Str) : Str :=
  subStarsFuel n pre post s.length s

/-- `inline_format` of `build_books.py`: escape, then `***`, `**`, `*`. -/
def inline_format (text : Str) : Str :=
  let safe := html_escape text
  let safe := subStars 3 "<strong><em>".toList "</em></strong>".toList safe
  let safe := subStars 2 "<strong>".toList "</strong>".toList safe
  subStars 1 "<em>".toList "</em>".toList safe

/-- The HTML element generated by `block_to_html` for one non-blank line. -/
def lineToHtml (stripped : Str) : Str :=
  if startsWith hashSpace stripped then
    "<h2 class=\"chapter-title\">".toList
      ++ inline_format (stripStr (stripped.drop 2)) ++ "</h2>".toList
  else "<p>".toList ++ inline_format stripped ++ "</p>".toList

/-- The `html_parts` list built by `block_to_html` (blank lines skipped). -/
def blockParts (block_text : Str) : List Str :=
  (splitLines block_text).filterMap (fun line =>
    let stripped := stripStr line
    if stripped = [] then none else some (lineToHtml stripped))

/-- `block_to_html` of `build_books.py`. -/
def block_to_html (block_text : Str) : Str := joinNl (blockParts block_text)

/-! ## `build_codex_refs.py`: per-identifier sort and dedup -/

/-- One occurrence record `{bookId, bookTitle, page}` of the reference
index. -/
structure RefRec where
  bookId : Str
  bookTitle : Str
  page : Nat
  deriving DecidableEq

/-- Python `s.lower()` (per-character lowercasing). -/
def lowerStr (s : Str) : Str := s.map Char.toLower

/-- Python's lexicographic `<` on strings (by code point). -/
def strLt : Str → Str → Bool
  | _, [] => false
  | [], _ :: _ => true
  | a :: as, b :: bs =>
    if a < b then true
    else if a = b then strLt as bs
    else false

/-- The sort key comparison `(r["bookTitle"].lower(), r["page"])` used by
`lst.sort(key=...)` in `build_codex_refs.py`, as a total preorder. -/
def refLE (a b : RefRec) : Bool :=
  if lowerStr a.bookTitle = lowerStr b.bookTitle then a.page ≤ b.page
  else strLt (lowerStr a.bookTitle) (lowerStr b.bookTitle)

/-- The dedup key `(r["bookId"], r["page"])`. -/
def refKey (r : RefRec) : Str × Nat := (r.bookId, r.page)

/-- The dedup loop of `build_codex_refs.py`: keep the first record for each
`(bookId, page)` key, tracking the `seen` set. -/
def dedupRefs (seen : List (Str × Nat)) : List RefRec → List RefRec
  | [] => []
  | r :: rest =>
    if refKey r ∈ seen then dedupRefs seen rest
    else r :: dedupRefs (refKey r :: seen) rest

/-- The per-identifier post-processing of `build_codex_refs.py`:
stable sort by `(bookTitle.lower(), page)` then dedup by `(bookId, page)`. -/
def processRefs (lst : List RefRec) : List RefRec :=
  dedupRefs [] (List.insertionSort (fun a b => refLE a b = true) lst)

/-- The repair pass's loop rephrased structurally: `done` is the prefix of
pages already accepted (the cursor's left part) and `todo` the remaining
pages from the cursor on. -/
def repairGo (done : List Str) (todo : List Str) : List Str :=
  match todo with
  | [] => done
  | [p] => done ++ [p]
  | p :: q :: rest =>
    if isHeadingOnlyPage p then repairGo done ((p ++ sepNN ++ q) :: rest)
    else repairGo (done ++ [p]) (q :: rest)
termination_by todo.length
decreasing_by
  · simp
  · simp

/-- A splitter-shaped paragraph: non-empty, no leading or trailing
whitespace, and no internal blank line (`"\n\n"` infix). -/
def GoodPara (p : Str) : Bool :=
  (! p.isEmpty) && (! isPyWs (p.headD ' ')) && (! isPyWs (p.getLastD ' ')) && (! hasNN p)

/-- A non-empty list of well-formed paragraphs (the shape of every page the
engine builds from splitter output). -/
def GoodList (ps : List Str) : Prop := ps ≠ [] ∧ ∀ p ∈ ps, GoodPara p = true

/-- Abstract packer state: pages kept as their paragraph lists. -/
structure AbsSt where
  pss : List (List Str)
  current : List Str
  current_len : Nat

/-- The packer's loop body on the abstract state. -/
def absStep (st : AbsSt) (para : Str) : AbsSt :=
  if para = pageBreakTok then
    if st.current = [] then st
    else ⟨st.pss ++ [st.current], [], 0⟩
  else if is_heading para then
    let st1 : AbsSt :=
      if st.current = [] then st
      else if st.pss ≠ [] ∧ st.current_len < MIN_CHARS_PER_PAGE then
        ⟨st.pss.dropLast ++ [st.pss.getLastD [] ++ st.current], [], 0⟩
      else ⟨st.pss ++ [st.current], [], 0⟩
    ⟨st1.pss, [para], para.length⟩
  else
    if st.current ≠ [] ∧ st.current_len + para.length > TARGET_CHARS_PER_PAGE then
      ⟨st.pss ++ [st.current], [para], para.length⟩
    else
      ⟨st.pss, st.current ++ [para], st.current_len + para.length⟩

/-- The packing loop on the abstract state, with the final flush. -/
def packAbs (paragraphs : List Str) : List (List Str) :=
  let st := paragraphs.foldl absStep ⟨[], [], 0⟩
  if st.current = [] then st.pss else st.pss ++ [st.current]

/-- Serialize an abstract state back to the concrete packer state. -/
def mapAbs (st : AbsSt) : PackSt := ⟨st.pss.map joinNN, st.current, st.current_len⟩

/-- The heading-only test on a page's paragraph list. -/
def absHO (ps : List Str) : Bool :=
  match ps with
  | [p] => startsWith hashSpace (lstripStr p)
  | _ => false

/-- The repair loop on abstract pages. -/
def repairGoAbs (done todo : List (List Str)) : List (List Str) :=
  match todo with
  | [] => done
  | [ps] => done ++ [ps]
  | ps :: qs :: rest =>
    if absHO ps then repairGoAbs done ((ps ++ qs) :: rest)
    else repairGoAbs (done ++ [ps]) (qs :: rest)
termination_by todo.length
decreasing_by
  · simp
  · simp

/-- A page's paragraph list respects the soft budget: either its total
character count is within the target, or it is a single paragraph. -/
def BOk (ps : List Str) : Prop := sumLens ps ≤ TARGET_CHARS_PER_PAGE ∨ ∃ b, ps = [b]

/-! ## Whitespace and stripping lemmas -/

theorem mem_of_mem_dropWhile {p : Char → Bool} {l : Str} {c : Char}
    (h : c ∈ l.dropWhile p) : c ∈ l := by
  have hl := List.takeWhile_append_dropWhile (p := p) (l := l)
  rw [← hl]
  exact List.mem_append_right _ h

theorem mem_of_mem_lstrip {s : Str} {c : Char} (h : c ∈ lstripStr s) : c ∈ s :=
  mem_of_mem_dropWhile h

theorem mem_of_mem_rstrip {s : Str} {c : Char} (h : c ∈ rstripStr s) : c ∈ s := by
  unfold rstripStr at h
  rw [List.mem_reverse] at h
  have := mem_of_mem_dropWhile h
  simpa using this

theorem mem_of_mem_strip {s : Str} {c : Char} (h : c ∈ stripStr s) : c ∈ s :=
  mem_of_mem_lstrip (mem_of_mem_rstrip h)

theorem dropWhile_nil_iff {p : Char → Bool} {l : Str} :
    l.dropWhile p = [] ↔ ∀ c ∈ l, p c := by
  induction l with
  | nil => simp
  | cons a t ih => by_cases h : p a <;> simp [List.dropWhile, h, ih]

theorem rstrip_nil_iff {s : Str} : rstripStr s = [] ↔ ∀ c ∈ s, isPyWs c := by
  unfold rstripStr
  rw [List.reverse_eq_nil_iff, dropWhile_nil_iff]
  constructor
  · intro h c hc
    exact h c (List.mem_reverse.mpr hc)
  · intro h c hc
    exact h c (List.mem_reverse.mp hc)

theorem strip_nil_iff {s : Str} : stripStr s = [] ↔ ∀ c ∈ s, isPyWs c := by
  unfold stripStr
  rw [rstrip_nil_iff]
  constructor
  · intro h c hc
    have hl := List.takeWhile_append_dropWhile (p := isPyWs) (l := s)
    rw [← hl] at hc
    rcases List.mem_append.mp hc with h1 | h2
    · exact List.mem_takeWhile_imp h1
    · exact h c h2
  · intro h c hc
    exact h c (mem_of_mem_lstrip hc)

theorem headD_dropWhile_not {p : Char → Bool} {l : Str} (h : l.dropWhile p ≠ []) (d : Char) :
    p ((l.dropWhile p).headD d) = false := by
  induction l with
  | nil => simp at h
  | cons a t ih =>
    by_cases ha : p a
    · rw [List.dropWhile_cons_of_pos ha] at h ⊢
      exact ih h
    · rw [List.dropWhile_cons_of_neg ha] at h ⊢
      simpa using ha

theorem lstrip_suffix (s : Str) : ∃ t, t ++ lstripStr s = s := by
  refine ⟨s.takeWhile isPyWs, ?_⟩
  unfold lstripStr
  exact List.takeWhile_append_dropWhile (p := isPyWs) (l := s)

theorem rstrip_prefix (s : Str) : ∃ t, rstripStr s ++ t = s := by
  refine ⟨(s.reverse.takeWhile isPyWs).reverse, ?_⟩
  unfold rstripStr
  rw [← List.reverse_append, List.takeWhile_append_dropWhile, List.reverse_reverse]

theorem strip_headD_not_ws {s : Str} (h : stripStr s ≠ []) (d : Char) :
    isPyWs ((stripStr s).headD d) = false := by
  have hl : lstripStr s ≠ [] := by
    intro hn
    apply h
    unfold stripStr
    rw [hn]
    rfl
  obtain ⟨t, ht⟩ := rstrip_prefix (lstripStr s)
  cases hs : stripStr s with
  | nil => exact absurd hs h
  | cons a r =>
    have hst : rstripStr (lstripStr s) = a :: r := hs
    rw [hst] at ht
    have hhead : (lstripStr s).headD d = a := by rw [← ht]; rfl
    have := headD_dropWhile_not (p := isPyWs) (l := s) hl d
    unfold lstripStr at hhead
    rw [hhead] at this
    simpa using this

theorem strip_getLastD_not_ws {s : Str} (h : stripStr s ≠ []) (d : Char) :
    isPyWs ((stripStr s).getLastD d) = false := by
  have hne : (lstripStr s).reverse.dropWhile isPyWs ≠ [] := by
    intro hn
    apply h
    unfold stripStr rstripStr
    rw [hn]
    rfl
  have h1 : (stripStr s).getLastD d = ((lstripStr s).reverse.dropWhile isPyWs).headD d := by
    unfold stripStr rstripStr
    rw [List.getLastD_eq_getLast?, List.getLast?_reverse, List.headD_eq_head?]
  rw [h1]
  exact headD_dropWhile_not hne d

theorem lstrip_eq_of_strip_eq {p : Str} (h : stripStr p = p) : lstripStr p = p := by
  obtain ⟨t, ht⟩ := rstrip_prefix (lstripStr p)
  obtain ⟨u, hu⟩ := lstrip_suffix p
  have hlen1 : (stripStr p).length + t.length = (lstripStr p).length := by
    have : (stripStr p ++ t).length = (lstripStr p).length := by
      unfold stripStr; rw [ht]
    simpa using this
  have hlen2 : u.length + (lstripStr p).length = p.length := by
    have : (u ++ lstripStr p).length = p.length := by rw [hu]
    simpa using this
  have hlen3 : (stripStr p).length = p.length := by rw [h]
  have hu0 : u.length = 0 := by omega
  have : u = [] := List.eq_nil_of_length_eq_zero hu0
  rw [this] at hu
  simpa using hu

/-! ## Well-formed paragraphs -/

theorem good_ne_nil {p : Str} (h : GoodPara p = true) : p ≠ [] := by
  simp [GoodPara] at h
  intro hn
  rw [hn] at h
  simp at h

theorem good_headD {p : Str} (h : GoodPara p = true) : isPyWs (p.headD ' ') = false := by
  simp only [GoodPara, Bool.and_eq_true, Bool.not_eq_true'] at h
  exact h.1.1.2

theorem good_getLastD {p : Str} (h : GoodPara p = true) : isPyWs (p.getLastD ' ') = false := by
  simp only [GoodPara, Bool.and_eq_true, Bool.not_eq_true'] at h
  exact h.1.2

theorem good_noNN {p : Str} (h : GoodPara p = true) : hasNN p = false := by
  simp [GoodPara] at h
  exact h.2

theorem good_lstrip {p : Str} (h : GoodPara p = true) : lstripStr p = p := by
  cases hp : p with
  | nil => rfl
  | cons a t =>
    have hh := good_headD h
    rw [hp] at hh
    simp only [List.headD_cons] at hh
    unfold lstripStr
    rw [List.dropWhile_cons_of_neg (by simp [hh])]

theorem good_rstrip {p : Str} (h : GoodPara p = true) : rstripStr p = p := by
  cases hr : p.reverse with
  | nil =>
    have : p = [] := by simpa using congrArg List.reverse hr
    rw [this]
    rfl
  | cons b r =>
    have hl := good_getLastD h
    have hb : p.getLastD ' ' = b := by
      rw [List.getLastD_eq_getLast?, List.getLast?_eq_head?_reverse, hr]
      rfl
    rw [hb] at hl
    unfold rstripStr
    rw [hr, List.dropWhile_cons_of_neg (by simp [hl]), ← hr, List.reverse_reverse]

theorem good_strip {p : Str} (h : GoodPara p = true) : stripStr p = p := by
  unfold stripStr
  rw [good_lstrip h, good_rstrip h]

theorem good_strip_ne_nil {p : Str} (h : GoodPara p = true) : stripStr p ≠ [] := by
  rw [good_strip h]
  exact good_ne_nil h

/-! ## Lines and joining lemmas -/

theorem splitLines_ne_nil (s : Str) : splitLines s ≠ [] := by
  cases s with
  | nil => simp [splitLines]
  | cons c rest =>
    by_cases h : c = '\n'
    · simp [splitLines, h]
    · cases hsp : splitLines rest with
      | nil => simp [splitLines, h, hsp]
      | cons hd tl => simp [splitLines, h, hsp]

theorem splitLines_no_nl : ∀ (s : Str), ∀ l ∈ splitLines s, '\n' ∉ l := by
  intro s
  induction s with
  | nil =>
    intro l hl
    simp [splitLines] at hl
    simp [hl]
  | cons c rest ih =>
    intro l hl
    by_cases h : c = '\n'
    · simp only [splitLines, if_pos h] at hl
      rcases List.mem_cons.mp hl with h1 | h2
      · simp [h1]
      · exact ih l h2
    · cases hsp : splitLines rest with
      | nil => exact absurd hsp (splitLines_ne_nil rest)
      | cons hd tl =>
        simp only [splitLines, if_neg h, hsp] at hl
        rcases List.mem_cons.mp hl with h1 | h2
        · subst h1
          intro hmem
          rcases List.mem_cons.mp hmem with h3 | h4
          · exact h h3.symm
          · exact ih hd (by rw [hsp]; exact List.mem_cons_self _ _) h4
        · exact ih l (by rw [hsp]; exact List.mem_cons_of_mem _ h2)

theorem joinNl_splitLines : ∀ s : Str, joinNl (splitLines s) = s := by
  intro s
  induction s with
  | nil => rfl
  | cons c rest ih =>
    by_cases h : c = '\n'
    · cases hsp : splitLines rest with
      | nil => exact absurd hsp (splitLines_ne_nil rest)
      | cons hd tl =>
        rw [hsp] at ih
        subst h
        simp only [splitLines, if_pos rfl, hsp, joinNl]
        cases tl with
        | nil => simp [joinNl] at ih ⊢; exact ih
        | cons t1 t2 => simpa [joinNl] using ih
    · cases hsp : splitLines rest with
      | nil => exact absurd hsp (splitLines_ne_nil rest)
      | cons hd tl =>
        rw [hsp] at ih
        simp only [splitLines, if_neg h, hsp]
        cases tl with
        | nil =>
          simp only [joinNl] at ih ⊢
          rw [ih]
        | cons t1 t2 =>
          simp only [joinNl] at ih ⊢
          rw [List.cons_append, ih]

theorem mem_joinNl {c : Char} : ∀ {ls : List Str} {l : Str}, l ∈ ls → c ∈ l → c ∈ joinNl ls := by
  intro ls
  induction ls with
  | nil => intro l hl; simp at hl
  | cons hd tl ih =>
    intro l hl hc
    cases tl with
    | nil =>
      simp at hl
      subst hl
      simpa [joinNl] using hc
    | cons t1 t2 =>
      simp only [joinNl]
      rcases List.mem_cons.mp hl with h1 | h2
      · subst h1
        exact List.mem_append_left _ hc
      · exact List.mem_append_right _ (List.mem_cons_of_mem _ (ih h2 hc))

theorem headD_joinNl {l : Str} {ls : List Str} (h : l ≠ []) (d : Char) :
    (joinNl (l :: ls)).headD d = l.headD d := by
  cases ls with
  | nil => simp [joinNl]
  | cons t1 t2 =>
    simp only [joinNl]
    cases l with
    | nil => exact absurd rfl h
    | cons a t => rfl

/-! ## Blank-line separator lemmas -/

theorem no_nl_hasNN : ∀ {s : Str}, '\n' ∉ s → hasNN s = false := by
  intro s
  induction s with
  | nil => intro _; rfl
  | cons a t ih =>
    intro h
    cases t with
    | nil => rfl
    | cons b t2 =>
      have ha : a ≠ '\n' := fun he => h (he ▸ List.mem_cons_self _ _)
      have h2 : '\n' ∉ b :: t2 := fun hm => h (List.mem_cons_of_mem _ hm)
      simp [hasNN, ih h2, ha]

theorem hasNN_append_nl : ∀ (l m : Str), '\n' ∉ l → m.headD ' ' ≠ '\n' →
    hasNN m = false → hasNN (l ++ '\n' :: m) = false := by
  intro l
  induction l with
  | nil =>
    intro m _ hhead hm
    cases m with
    | nil => rfl
    | cons b mt =>
      simp only [List.headD_cons] at hhead
      simp [List.nil_append, hasNN, hhead, hm]
  | cons a l' ih =>
    intro m hnl hhead hm
    have ha : a ≠ '\n' := fun he => hnl (he ▸ List.mem_cons_self _ _)
    have hrec : hasNN (l' ++ '\n' :: m) = false :=
      ih m (fun hmem => hnl (List.mem_cons_of_mem _ hmem)) hhead hm
    cases hl : l' ++ '\n' :: m with
    | nil => cases l' <;> simp at hl
    | cons b u =>
      rw [List.cons_append, hl, hasNN, ← hl, hrec]
      simp [ha]

theorem joinNl_no_hasNN : ∀ (lines : List Str),
    (∀ l ∈ lines, '\n' ∉ l ∧ l ≠ []) → hasNN (joinNl lines) = false := by
  intro lines
  induction lines with
  | nil => intro _; rfl
  | cons hd tl ih =>
    intro h
    cases tl with
    | nil =>
      simp only [joinNl]
      exact no_nl_hasNN (h hd (List.mem_cons_self _ _)).1
    | cons t1 t2 =>
      simp only [joinNl]
      apply hasNN_append_nl
      · exact (h hd (List.mem_cons_self _ _)).1
      · have ht1 := h t1 (List.mem_cons_of_mem _ (List.mem_cons_self _ _))
        rw [headD_joinNl ht1.2]
        cases ht : t1 with
        | nil => exact absurd ht ht1.2
        | cons a u =>
          simp only [List.headD_cons]
          intro he
          exact ht1.1 (by rw [ht, he]; exact List.mem_cons_self _ _)
      · exact ih (fun l hl => h l (List.mem_cons_of_mem _ hl))

theorem hasNN_iff : ∀ {s : Str}, hasNN s = true ↔ ∃ u v, s = u ++ '\n' :: '\n' :: v := by
  intro s
  induction s with
  | nil =>
    constructor
    · intro h
      simp [hasNN] at h
    · rintro ⟨u, v, h⟩
      exact absurd h.symm (by simp)
  | cons a t ih =>
    cases t with
    | nil =>
      constructor
      · intro h
        simp [hasNN] at h
      · rintro ⟨u, v, h⟩
        rcases u with _ | ⟨x, u'⟩
        · simp at h
        · rw [List.cons_append] at h
          have := (List.cons.injEq _ _ _ _).mp h
          exact absurd this.2.symm (by simp)
    | cons b t2 =>
      constructor
      · intro h
        rw [hasNN] at h
        rcases Bool.or_eq_true_iff.mp h with h1 | h2
        · rw [Bool.and_eq_true] at h1
          refine ⟨[], t2, ?_⟩
          rw [List.nil_append, beq_iff_eq.mp h1.1, beq_iff_eq.mp h1.2]
        · obtain ⟨u, v, he⟩ := ih.mp h2
          exact ⟨a :: u, v, by rw [List.cons_append, he]⟩
      · rintro ⟨u, v, h⟩
        rw [hasNN]
        rcases u with _ | ⟨x, u'⟩
        · simp only [List.nil_append] at h
          have h1 := (List.cons.injEq _ _ _ _).mp h
          have h2 := (List.cons.injEq _ _ _ _).mp h1.2
          rw [h1.1, h2.1]
          simp
        · rw [List.cons_append] at h
          have h1 := (List.cons.injEq _ _ _ _).mp h
          have : hasNN (b :: t2) = true := ih.mpr ⟨u', v, h1.2⟩
          rw [this]
          simp

theorem strip_hasNN {s : Str} (h : hasNN s = false) : hasNN (stripStr s) = false := by
  by_contra hc
  have hc' : hasNN (stripStr s) = true := by
    cases hcc : hasNN (stripStr s) with
    | false => exact absurd hcc hc
    | true => rfl
  obtain ⟨u, v, he⟩ := hasNN_iff.mp hc'
  obtain ⟨t1, ht1⟩ := lstrip_suffix s
  obtain ⟨t2, ht2⟩ := rstrip_prefix (lstripStr s)
  have hdec : s = t1 ++ (stripStr s ++ t2) := by
    unfold stripStr
    rw [ht2, ht1]
  have hs : s = (t1 ++ u) ++ '\n' :: '\n' :: (v ++ t2) := by
    rw [hdec, he]
    simp [List.append_assoc]
  have := hasNN_iff.mpr ⟨t1 ++ u, v ++ t2, hs⟩
  rw [h] at this
  exact Bool.false_ne_true this

/-! ## The splitter produces well-formed paragraphs -/

theorem mem_of_mem_rstripCR {s : Str} {c : Char} (h : c ∈ rstripCR s) : c ∈ s := by
  unfold rstripCR at h
  rw [List.mem_reverse] at h
  have := mem_of_mem_dropWhile h
  simpa using this

theorem flush_good {lines : List Str} (hne : lines ≠ [])
    (h : ∀ l ∈ lines, '\n' ∉ l ∧ stripStr l ≠ []) :
    GoodPara (stripStr (joinNl lines)) = true := by
  obtain ⟨l1, ls, rfl⟩ : ∃ l1 ls, lines = l1 :: ls := by
    cases lines with
    | nil => exact absurd rfl hne
    | cons a b => exact ⟨a, b, rfl⟩
  have h1 := h l1 (List.mem_cons_self _ _)
  have hnall : ¬ ∀ c ∈ l1, isPyWs c := fun hall => h1.2 (strip_nil_iff.mpr hall)
  push_neg at hnall
  obtain ⟨c, hc, hcw⟩ := hnall
  have hcj : c ∈ joinNl (l1 :: ls) := mem_joinNl (List.mem_cons_self _ _) hc
  have hstrip_ne : stripStr (joinNl (l1 :: ls)) ≠ [] := by
    intro hn
    exact hcw (strip_nil_iff.mp hn c hcj)
  have hgoodlines : ∀ l ∈ l1 :: ls, '\n' ∉ l ∧ l ≠ [] := by
    intro l hl
    refine ⟨(h l hl).1, ?_⟩
    intro hln
    exact (h l hl).2 (by rw [hln]; rfl)
  unfold GoodPara
  simp only [Bool.and_eq_true, Bool.not_eq_true']
  refine ⟨⟨⟨?_, ?_⟩, ?_⟩, ?_⟩
  · simp [List.isEmpty_iff, hstrip_ne]
  · exact strip_headD_not_ws hstrip_ne ' '
  · exact strip_getLastD_not_ws hstrip_ne ' '
  · exact strip_hasNN (joinNl_no_hasNN _ hgoodlines)

theorem parse_inv : ∀ (lines : List Str) (st : List Str × List Str),
    (∀ l ∈ lines, '\n' ∉ l) →
    (∀ p ∈ st.1, p = pageBreakTok ∨ GoodPara p = true) →
    (∀ l ∈ st.2, '\n' ∉ l ∧ stripStr l ≠ []) →
    (∀ p ∈ (lines.foldl parseStep st).1, p = pageBreakTok ∨ GoodPara p = true) ∧
    (∀ l ∈ (lines.foldl parseStep st).2, '\n' ∉ l ∧ stripStr l ≠ []) := by
  intro lines
  induction lines with
  | nil =>
    intro st _ h1 h2
    exact ⟨h1, h2⟩
  | cons raw rest ih =>
    intro st hlines h1 h2
    rw [List.foldl_cons]
    have hrest : ∀ l ∈ rest, '\n' ∉ l := fun l hl => hlines l (List.mem_cons_of_mem _ hl)
    have hflush : st.2 ≠ [] → GoodPara (stripStr (joinNl st.2)) = true :=
      fun hne => flush_good hne h2
    by_cases hs : stripStr (rstripCR raw) = pageSentinel
    · refine ih _ hrest ?_ ?_
      · intro p hp
        simp only [parseStep, if_pos hs] at hp
        rcases List.mem_append.mp hp with hp1 | hp2
        · by_cases hc : st.2 = []
          · rw [if_pos hc] at hp1
            exact h1 p hp1
          · rw [if_neg hc] at hp1
            rcases List.mem_append.mp hp1 with hq1 | hq2
            · exact h1 p hq1
            · right
              have : p = stripStr (joinNl st.2) := by simpa using hq2
              rw [this]
              exact hflush hc
        · left
          simpa using hp2
      · intro l hl
        simp only [parseStep, if_pos hs] at hl
        simp at hl
    · by_cases hb : stripStr (rstripCR raw) = []
      · refine ih _ hrest ?_ ?_
        · intro p hp
          simp only [parseStep, if_neg hs, if_pos hb] at hp
          by_cases hc : st.2 = []
          · rw [if_pos hc] at hp
            exact h1 p hp
          · rw [if_neg hc] at hp
            rcases List.mem_append.mp hp with hq1 | hq2
            · exact h1 p hq1
            · right
              have : p = stripStr (joinNl st.2) := by simpa using hq2
              rw [this]
              exact hflush hc
        · intro l hl
          simp only [parseStep, if_neg hs, if_pos hb] at hl
          simp at hl
      · refine ih _ hrest ?_ ?_
        · intro p hp
          simp only [parseStep, if_neg hs, if_neg hb] at hp
          exact h1 p hp
        · intro l hl
          simp only [parseStep, if_neg hs, if_neg hb] at hl
          rcases List.mem_append.mp hl with hl1 | hl2
          · exact h2 l hl1
          · have : l = rstripCR raw := by simpa using hl2
            rw [this]
            refine ⟨?_, hb⟩
            intro hm
            exact hlines raw (List.mem_cons_self _ _) (mem_of_mem_rstripCR hm)

theorem parse_good (text : Str) :
    ∀ p ∈ parse_paragraphs text, p = pageBreakTok ∨ GoodPara p = true := by
  intro p hp
  unfold parse_paragraphs at hp
  have hinv := parse_inv (splitLines text) ([], [])
    (fun l hl => splitLines_no_nl text l hl) (by simp) (by simp)
  by_cases hc : ((splitLines text).foldl parseStep ([], [])).2 = []
  · rw [if_pos hc] at hp
    exact hinv.1 p hp
  · rw [if_neg hc] at hp
    rcases List.mem_append.mp hp with h1 | h2
    · exact hinv.1 p h1
    · right
      have : p = stripStr (joinNl ((splitLines text).foldl parseStep ([], [])).2) := by
        simpa using h2
      rw [this]
      exact flush_good hc hinv.2

/-! ## Splitting on the blank-line separator -/

theorem splitNN_ne_nil (s : Str) : splitNN s ≠ [] := by
  match s with
  | [] => simp [splitNN]
  | [c] => simp [splitNN]
  | a :: b :: rest =>
    by_cases h : a = '\n' ∧ b = '\n'
    · simp [splitNN, h]
    · cases hsp : splitNN (b :: rest) with
      | nil => simp [splitNN, h, hsp]
      | cons hd tl => simp [splitNN, h, hsp]

theorem hasNN_cons_false {a : Char} {t : Str} (h : hasNN (a :: t) = false) :
    hasNN t = false := by
  cases t with
  | nil => rfl
  | cons b t2 =>
    rw [hasNN, Bool.or_eq_false_iff] at h
    exact h.2

theorem splitNN_single : ∀ {p : Str}, hasNN p = false → splitNN p = [p] := by
  intro p
  match p with
  | [] => intro _; rfl
  | [c] => intro _; rfl
  | a :: b :: rest =>
    intro h
    have hcond : ¬ (a = '\n' ∧ b = '\n') := by
      rw [hasNN, Bool.or_eq_false_iff, Bool.and_eq_false_iff] at h
      rcases h.1 with h1 | h1 <;> intro hab
      · rw [hab.1] at h1
        simp at h1
      · rw [hab.2] at h1
        simp at h1
    have hrest : hasNN (b :: rest) = false := hasNN_cons_false h
    have ih := splitNN_single hrest
    simp [splitNN, hcond, ih]

theorem joinNN_cons {p : Str} {ps : List Str} (h : ps ≠ []) :
    joinNN (p :: ps) = p ++ sepNN ++ joinNN ps := by
  cases ps with
  | nil => exact absurd rfl h
  | cons q ps' => rfl

theorem joinNN_append : ∀ {a b : List Str}, a ≠ [] → b ≠ [] →
    joinNN (a ++ b) = joinNN a ++ sepNN ++ joinNN b := by
  intro a
  induction a with
  | nil => intro b h _; exact absurd rfl h
  | cons x a' ih =>
    intro b _ hb
    cases ha' : a' with
    | nil =>
      rw [List.cons_append, List.nil_append, joinNN_cons hb]
      rfl
    | cons y a2 =>
      rw [List.cons_append, joinNN_cons (by simp), joinNN_cons (by simp [ha']), ← ha']
      rw [ih (by simp [ha']) hb]
      simp [List.append_assoc]

theorem splitNN_append_sep : ∀ (p t : Str), hasNN p = false → p.getLast? ≠ some '\n' →
    splitNN (p ++ sepNN ++ t) = p :: splitNN t := by
  intro p
  match p with
  | [] =>
    intro t _ _
    show splitNN ('\n' :: '\n' :: t) = [] :: splitNN t
    simp [splitNN]
  | [a] =>
    intro t _ hlast
    have ha : a ≠ '\n' := by
      intro he
      exact hlast (by rw [he]; rfl)
    show splitNN (a :: '\n' :: '\n' :: t) = [a] :: splitNN t
    have hbase : splitNN ('\n' :: '\n' :: t) = [] :: splitNN t := by simp [splitNN]
    simp [splitNN, ha, hbase]
  | a :: b :: p' =>
    intro t hnn hlast
    have hcond : ¬ (a = '\n' ∧ b = '\n') := by
      rw [hasNN, Bool.or_eq_false_iff, Bool.and_eq_false_iff] at hnn
      rcases hnn.1 with h1 | h1 <;> intro hab
      · rw [hab.1] at h1
        simp at h1
      · rw [hab.2] at h1
        simp at h1
    have hrest : hasNN (b :: p') = false := hasNN_cons_false hnn
    have hlast' : (b :: p').getLast? ≠ some '\n' := by
      rwa [List.getLast?_cons_cons] at hlast
    have ih := splitNN_append_sep (b :: p') t hrest hlast'
    show splitNN (a :: ((b :: p') ++ sepNN ++ t)) = (a :: b :: p') :: splitNN t
    have hshape : (b :: p') ++ sepNN ++ t = b :: (p' ++ sepNN ++ t) := by
      simp [List.append_assoc]
    rw [hshape]
    have hexp : splitNN (a :: b :: (p' ++ sepNN ++ t)) =
        if a = '\n' ∧ b = '\n' then [] :: splitNN (p' ++ sepNN ++ t)
        else match splitNN (b :: (p' ++ sepNN ++ t)) with
          | [] => [[a]]
          | h :: t' => (a :: h) :: t' := rfl
    rw [hexp, if_neg hcond, ← hshape, ih]

theorem splitNN_joinNN : ∀ {ps : List Str}, ps ≠ [] →
    (∀ p ∈ ps, hasNN p = false ∧ p.getLast? ≠ some '\n') →
    splitNN (joinNN ps) = ps := by
  intro ps
  induction ps with
  | nil => intro h _; exact absurd rfl h
  | cons p ps' ih =>
    intro _ h
    by_cases hps' : ps' = []
    · subst hps'
      show splitNN (joinNN [p]) = [p]
      exact splitNN_single (h p (List.mem_cons_self _ _)).1
    · rw [joinNN_cons hps']
      rw [splitNN_append_sep p (joinNN ps') (h p (List.mem_cons_self _ _)).1
        (h p (List.mem_cons_self _ _)).2]
      rw [ih hps' (fun x hx => h x (List.mem_cons_of_mem _ hx))]

theorem good_getLast?_ne_nl {p : Str} (h : GoodPara p = true) : p.getLast? ≠ some '\n' := by
  intro hl
  have hlast := good_getLastD h
  rw [List.getLastD_eq_getLast?, hl] at hlast
  simp [isPyWs] at hlast

theorem good_blocksOf {ps : List Str} (hne : ps ≠ []) (h : ∀ p ∈ ps, GoodPara p = true) :
    blocksOf (joinNN ps) = ps := by
  unfold blocksOf
  rw [splitNN_joinNN hne (fun p hp => ⟨good_noNN (h p hp), good_getLast?_ne_nl (h p hp)⟩)]
  rw [List.filter_eq_self]
  intro p hp
  simp [List.isEmpty_iff, good_strip_ne_nil (h p hp)]

theorem joinNN_ne_nil {ps : List Str} (hne : ps ≠ []) (h : ∀ p ∈ ps, p ≠ []) :
    joinNN ps ≠ [] := by
  cases ps with
  | nil => exact absurd rfl hne
  | cons p ps' =>
    cases ps' with
    | nil => exact h p (List.mem_cons_self _ _)
    | cons q ps2 =>
      rw [joinNN_cons (by simp)]
      simp [sepNN]

/-! ## A structural view of the repair loop -/

theorem set_erase_decomp : ∀ (l : List Str) (i : Nat) (x : Str), i + 1 < l.length →
    (l.set i x).eraseIdx (i + 1) = l.take i ++ x :: l.drop (i + 2) := by
  intro l
  induction l with
  | nil =>
    intro i x h
    simp at h
  | cons a t ih =>
    intro i x h
    cases i with
    | zero =>
      cases t with
      | nil => simp at h
      | cons b t2 => simp
    | succ i' =>
      have h' : i' + 1 < t.length := by simpa using h
      rw [List.set_cons_succ, List.eraseIdx_cons_succ, ih i' x h']
      simp

theorem drop_eq_getD_cons : ∀ (l : List Str) (i : Nat), i < l.length →
    l.drop i = l.getD i [] :: l.drop (i + 1) := by
  intro l
  induction l with
  | nil =>
    intro i h
    simp at h
  | cons a t ih =>
    intro i h
    cases i with
    | zero => simp
    | succ i' =>
      have h' : i' < t.length := by simpa using h
      rw [List.drop_succ_cons, List.getD_cons_succ, ih i' h', ← List.drop_succ_cons (a := a)]

theorem take_succ_getD : ∀ (l : List Str) (i : Nat), i < l.length →
    l.take (i + 1) = l.take i ++ [l.getD i []] := by
  intro l
  induction l with
  | nil =>
    intro i h
    simp at h
  | cons a t ih =>
    intro i h
    cases i with
    | zero => simp
    | succ i' =>
      have h' : i' < t.length := by simpa using h
      rw [List.take_succ_cons, List.take_succ_cons, List.getD_cons_succ, ih i' h']
      rfl

theorem repairGo_nil (done : List Str) : repairGo done [] = done := by
  unfold repairGo
  rfl

theorem repairGo_single (done : List Str) (p : Str) : repairGo done [p] = done ++ [p] := by
  unfold repairGo
  rfl

theorem repairGo_cons (done : List Str) (p q : Str) (rest : List Str) :
    repairGo done (p :: q :: rest) =
      if isHeadingOnlyPage p then repairGo done ((p ++ sepNN ++ q) :: rest)
      else repairGo (done ++ [p]) (q :: rest) := by
  conv_lhs => rw [repairGo]

theorem repairLoop_eq_go : ∀ (n : Nat) (pages : List Str) (i : Nat),
    pages.length - i ≤ n →
    repairLoop pages i = repairGo (pages.take i) (pages.drop i) := by
  intro n
  induction n with
  | zero =>
    intro pages i h
    unfold repairLoop
    rw [dif_neg (by omega : ¬ i + 1 < pages.length)]
    rw [List.drop_eq_nil_of_le (by omega), List.take_of_length_le (by omega), repairGo_nil]
  | succ n ih =>
    intro pages i h
    unfold repairLoop
    by_cases hact : i + 1 < pages.length
    · rw [dif_pos hact]
      have hi : i < pages.length := by omega
      have hdrop : pages.drop i =
          pages.getD i [] :: pages.getD (i + 1) [] :: pages.drop (i + 2) := by
        rw [drop_eq_getD_cons _ _ hi, drop_eq_getD_cons _ _ hact]
      by_cases hHO : isHeadingOnlyPage (pages.getD i [])
      · rw [if_pos hHO, hdrop, repairGo_cons, if_pos hHO]
        have hdec := set_erase_decomp pages i
          (pages.getD i [] ++ sepNN ++ pages.getD (i + 1) []) hact
        rw [hdec]
        have htk : i ≤ pages.length := by omega
        have hlen_take : (pages.take i).length = i := by
          rw [List.length_take]
          omega
        have hnewlen : (pages.take i ++ (pages.getD i [] ++ sepNN ++ pages.getD (i + 1) [])
            :: pages.drop (i + 2)).length = pages.length - 1 := by
          rw [List.length_append, hlen_take]
          simp only [List.length_cons, List.length_drop]
          omega
        rw [ih _ i (by omega)]
        rw [List.take_left' hlen_take, List.drop_left' hlen_take]
      · rw [if_neg hHO, hdrop, repairGo_cons, if_neg hHO]
        rw [ih pages (i + 1) (by omega)]
        rw [take_succ_getD _ _ hi, drop_eq_getD_cons _ _ hact]
    · rw [dif_neg hact]
      by_cases hi : i < pages.length
      · have hdrop : pages.drop i = [pages.getD i []] := by
          rw [drop_eq_getD_cons _ _ hi, List.drop_eq_nil_of_le (by omega)]
        rw [hdrop, repairGo_single, ← take_succ_getD _ _ hi,
          List.take_of_length_le (by omega)]
      · rw [List.drop_eq_nil_of_le (by omega), List.take_of_length_le (by omega), repairGo_nil]

theorem repairFuel_eq : ∀ (n : Nat) (pages : List Str) (i : Nat),
    pages.length - i ≤ n → repairFuel n pages i = repairLoop pages i := by
  intro n
  induction n with
  | zero =>
    intro pages i h
    unfold repairLoop
    rw [dif_neg (by omega : ¬ i + 1 < pages.length)]
    rfl
  | succ n ih =>
    intro pages i h
    unfold repairLoop
    show repairFuel (n + 1) pages i = _
    by_cases hact : i + 1 < pages.length
    · rw [dif_pos hact]
      simp only [repairFuel]
      rw [if_pos hact]
      by_cases hHO : isHeadingOnlyPage (pages.getD i [])
      · rw [if_pos hHO, if_pos hHO]
        apply ih
        have h1 : (pages.set i (pages.getD i [] ++ sepNN ++ pages.getD (i + 1) [])).length
            = pages.length := by simp
        have h2 : ((pages.set i (pages.getD i [] ++ sepNN ++ pages.getD (i + 1) [])).eraseIdx
            (i + 1)).length = pages.length - 1 := by
          rw [List.length_eraseIdx, h1, if_pos hact]
        omega
      · rw [if_neg hHO, if_neg hHO]
        exact ih pages (i + 1) (by omega)
    · rw [dif_neg hact]
      simp only [repairFuel]
      rw [if_neg hact]

theorem build_eq_buildFuel (paragraphs : List Str) :
    build_pages_from_paragraphs paragraphs = buildFuel paragraphs := by
  unfold build_pages_from_paragraphs buildFuel
  exact (repairFuel_eq _ _ 0 (by omega)).symm

theorem build_eq_go (paragraphs : List Str) :
    build_pages_from_paragraphs paragraphs = repairGo [] (packPages paragraphs) := by
  unfold build_pages_from_paragraphs
  rw [repairLoop_eq_go (packPages paragraphs).length _ 0 (by omega)]
  rfl

/-! ## The repair loop leaves no heading-only page before the last -/

theorem repairGo_dropLast_no_HO : ∀ (n : Nat) (done todo : List Str), todo.length ≤ n →
    (∀ p ∈ done, isHeadingOnlyPage p = false) →
    ∀ p ∈ (repairGo done todo).dropLast, isHeadingOnlyPage p = false := by
  intro n
  induction n with
  | zero =>
    intro done todo h hdone
    have ht : todo = [] := List.eq_nil_of_length_eq_zero (by omega)
    subst ht
    rw [repairGo_nil]
    intro p hp
    exact hdone p ((List.dropLast_sublist _).subset hp)
  | succ n ih =>
    intro done todo h hdone
    match todo with
    | [] =>
      rw [repairGo_nil]
      intro p hp
      exact hdone p ((List.dropLast_sublist _).subset hp)
    | [q] =>
      rw [repairGo_single]
      intro p hp
      rw [List.dropLast_concat] at hp
      exact hdone p hp
    | q :: r :: rest =>
      rw [repairGo_cons]
      by_cases hHO : isHeadingOnlyPage q
      · rw [if_pos hHO]
        refine ih done _ ?_ hdone
        simp only [List.length_cons] at h ⊢
        omega
      · rw [if_neg hHO]
        refine ih (done ++ [q]) _ ?_ ?_
        · simp only [List.length_cons] at h ⊢
          omega
        · intro p hp
          rcases List.mem_append.mp hp with h1 | h2
          · exact hdone p h1
          · have hpq : p = q := by simpa using h2
            rw [hpq]
            simpa using hHO

/-! ## Abstract packer: pages as paragraph lists -/

theorem repairGoAbs_nil (done : List (List Str)) : repairGoAbs done [] = done := by
  unfold repairGoAbs
  rfl

theorem repairGoAbs_single (done : List (List Str)) (ps : List Str) :
    repairGoAbs done [ps] = done ++ [ps] := by
  unfold repairGoAbs
  rfl

theorem repairGoAbs_cons (done : List (List Str)) (ps qs : List Str) (rest : List (List Str)) :
    repairGoAbs done (ps :: qs :: rest) =
      if absHO ps then repairGoAbs done ((ps ++ qs) :: rest)
      else repairGoAbs (done ++ [ps]) (qs :: rest) := by
  conv_lhs => rw [repairGoAbs]

theorem joinNN_pair (a b : Str) : joinNN [a, b] = a ++ sepNN ++ b := rfl

theorem getLastD_map_joinNN (l : List (List Str)) :
    (l.map joinNN).getLastD [] = joinNN (l.getLastD []) := by
  rw [List.getLastD_eq_getLast?, List.getLastD_eq_getLast?, List.getLast?_map]
  cases l.getLast? with
  | none => rfl
  | some x => rfl

theorem getLastD_mem {l : List (List Str)} (h : l ≠ []) : l.getLastD [] ∈ l := by
  rw [List.getLastD_eq_getLast?]
  cases hl : l.getLast? with
  | none =>
    rw [List.getLast?_eq_none_iff] at hl
    exact absurd hl h
  | some x =>
    have hx : x ∈ l := by
      have hgl := List.getLast?_eq_getLast l h
      rw [hgl] at hl
      have : l.getLast h = x := by injection hl
      rw [← this]
      exact List.getLast_mem h
    simpa using hx

theorem dropLast_append_getLastD {l : List (List Str)} (h : l ≠ []) :
    l.dropLast ++ [l.getLastD []] = l := by
  rw [List.getLastD_eq_getLast?]
  cases hl : l.getLast? with
  | none =>
    rw [List.getLast?_eq_none_iff] at hl
    exact absurd hl h
  | some x =>
    have := List.dropLast_append_getLast h
    rw [List.getLast?_eq_getLast _ h] at hl
    have hx : l.getLast h = x := by
      injection hl
    rw [← hx]
    simpa using this

theorem absStep_sim (pss : List (List Str)) (cur : List Str) (len : Nat) (para : Str)
    (hpss : ∀ ps ∈ pss, GoodList ps) (hcur : ∀ p ∈ cur, GoodPara p = true)
    (hp : para = pageBreakTok ∨ GoodPara para = true) :
    packStep (mapAbs ⟨pss, cur, len⟩) para = mapAbs (absStep ⟨pss, cur, len⟩ para) ∧
    (∀ ps ∈ (absStep ⟨pss, cur, len⟩ para).pss, GoodList ps) ∧
    (∀ p ∈ (absStep ⟨pss, cur, len⟩ para).current, GoodPara p = true) := by
  have hflushGood : cur ≠ [] → GoodList cur := fun hc => ⟨hc, hcur⟩
  by_cases htok : para = pageBreakTok
  · by_cases hc : cur = []
    · subst hc
      simp only [packStep, absStep, mapAbs, htok, if_pos rfl, if_true]
      exact ⟨by trivial, hpss, by simp⟩
    · simp only [packStep, absStep, mapAbs, htok, if_pos rfl, if_neg hc]
      refine ⟨by simp, ?_, by simp⟩
      intro ps hps
      rcases List.mem_append.mp hps with h1 | h2
      · exact hpss ps h1
      · have : ps = cur := by simpa using h2
        rw [this]
        exact hflushGood hc
  · have hpgood : GoodPara para = true := by
      rcases hp with h1 | h1
      · exact absurd h1 htok
      · exact h1
    by_cases hhead : is_heading para = true
    · by_cases hc : cur = []
      · subst hc
        simp only [packStep, absStep, mapAbs, if_neg htok, hhead, if_pos rfl, if_true]
        exact ⟨by trivial, hpss, by simpa using hpgood⟩
      · by_cases horph : pss ≠ [] ∧ len < MIN_CHARS_PER_PAGE
        · have hmapne : pss.map joinNN ≠ [] := by
            simpa using horph.1
          have hlastGood : GoodList (pss.getLastD []) := hpss _ (getLastD_mem horph.1)
          simp only [packStep, absStep, mapAbs, if_neg htok, hhead, if_neg hc, if_true,
            if_pos (And.intro hmapne horph.2), if_pos horph]
          refine ⟨?_, ?_, by simpa using hpgood⟩
          · have he : joinNN [(pss.map joinNN).getLastD [], joinNN cur] =
                joinNN (pss.getLastD [] ++ cur) := by
              rw [joinNN_pair, getLastD_map_joinNN, joinNN_append hlastGood.1 hc]
            rw [he]
            simp [List.map_dropLast]
          · intro ps hps
            rcases List.mem_append.mp hps with h1 | h2
            · exact hpss ps (List.dropLast_sublist pss |>.subset h1)
            · have : ps = pss.getLastD [] ++ cur := by simpa using h2
              rw [this]
              refine ⟨?_, ?_⟩
              · intro hn
                rw [List.append_eq_nil] at hn
                exact hc hn.2
              intro p hp2
              rcases List.mem_append.mp hp2 with h3 | h4
              · exact hlastGood.2 p h3
              · exact hcur p h4
        · have hmorph : ¬ (pss.map joinNN ≠ [] ∧ len < MIN_CHARS_PER_PAGE) := by
            intro hcon
            exact horph ⟨by simpa using hcon.1, hcon.2⟩
          simp only [packStep, absStep, mapAbs, if_neg htok, hhead, if_neg hc, if_true,
            if_neg hmorph, if_neg horph]
          refine ⟨by simp, ?_, by simpa using hpgood⟩
          intro ps hps
          rcases List.mem_append.mp hps with h1 | h2
          · exact hpss ps h1
          · have : ps = cur := by simpa using h2
            rw [this]
            exact hflushGood hc
    · have hhead' : is_heading para = false := by
        simpa using hhead
      by_cases hover : cur ≠ [] ∧ len + para.length > TARGET_CHARS_PER_PAGE
      · simp only [packStep, absStep, mapAbs, if_neg htok, hhead', Bool.false_eq_true,
          if_false, if_pos hover]
        refine ⟨by simp, ?_, by simpa using hpgood⟩
        intro ps hps
        rcases List.mem_append.mp hps with h1 | h2
        · exact hpss ps h1
        · have : ps = cur := by simpa using h2
          rw [this]
          exact hflushGood hover.1
      · simp only [packStep, absStep, mapAbs, if_neg htok, hhead', Bool.false_eq_true,
          if_false, if_neg hover]
        refine ⟨by simp, hpss, ?_⟩
        intro p hp2
        rcases List.mem_append.mp hp2 with h1 | h2
        · exact hcur p h1
        · have : p = para := by simpa using h2
          rw [this]
          exact hpgood

theorem foldAbs_sim : ∀ (paras : List Str) (pss : List (List Str)) (cur : List Str) (len : Nat),
    (∀ p ∈ paras, p = pageBreakTok ∨ GoodPara p = true) →
    (∀ ps ∈ pss, GoodList ps) → (∀ p ∈ cur, GoodPara p = true) →
    paras.foldl packStep (mapAbs ⟨pss, cur, len⟩) = mapAbs (paras.foldl absStep ⟨pss, cur, len⟩) ∧
    (∀ ps ∈ (paras.foldl absStep ⟨pss, cur, len⟩).pss, GoodList ps) ∧
    (∀ p ∈ (paras.foldl absStep ⟨pss, cur, len⟩).current, GoodPara p = true) := by
  intro paras
  induction paras with
  | nil =>
    intro pss cur len _ h1 h2
    exact ⟨rfl, h1, h2⟩
  | cons para rest ih =>
    intro pss cur len hall h1 h2
    rw [List.foldl_cons, List.foldl_cons]
    obtain ⟨heq, hg1, hg2⟩ := absStep_sim pss cur len para h1 h2 (hall para (List.mem_cons_self _ _))
    rw [heq]
    rcases habs : absStep ⟨pss, cur, len⟩ para with ⟨pss2, cur2, len2⟩
    rw [habs] at hg1 hg2
    exact ih pss2 cur2 len2 (fun p hp => hall p (List.mem_cons_of_mem _ hp)) hg1 hg2

theorem packPages_abs (paras : List Str)
    (h : ∀ p ∈ paras, p = pageBreakTok ∨ GoodPara p = true) :
    packPages paras = (packAbs paras).map joinNN ∧ ∀ ps ∈ packAbs paras, GoodList ps := by
  obtain ⟨heq, hg1, hg2⟩ := foldAbs_sim paras [] [] 0 h (by simp) (by simp)
  have hzero : (⟨[], [], 0⟩ : PackSt) = mapAbs ⟨[], [], 0⟩ := rfl
  unfold packPages packAbs
  rw [hzero, heq]
  rcases habs : paras.foldl absStep ⟨[], [], 0⟩ with ⟨pss2, cur2, len2⟩
  rw [habs] at hg1 hg2
  simp only [mapAbs]
  by_cases hc : cur2 = []
  · rw [if_pos hc, if_pos hc]
    exact ⟨rfl, hg1⟩
  · rw [if_neg hc, if_neg hc]
    refine ⟨by simp, ?_⟩
    intro ps hps
    rcases List.mem_append.mp hps with h1 | h2
    · exact hg1 ps h1
    · have : ps = cur2 := by simpa using h2
      rw [this]
      exact ⟨hc, hg2⟩

theorem foldAbs_flatten : ∀ (paras : List Str) (pss : List (List Str)) (cur : List Str) (len : Nat),
    (paras.foldl absStep ⟨pss, cur, len⟩).pss.flatten ++
      (paras.foldl absStep ⟨pss, cur, len⟩).current =
    pss.flatten ++ cur ++ paras.filter (fun p => p != pageBreakTok) := by
  intro paras
  induction paras with
  | nil =>
    intro pss cur len
    simp
  | cons para rest ih =>
    intro pss cur len
    rw [List.foldl_cons]
    by_cases htok : para = pageBreakTok
    · have hfil : (para :: rest).filter (fun p => p != pageBreakTok) =
          rest.filter (fun p => p != pageBreakTok) := by
        simp [List.filter_cons, htok]
      rw [hfil]
      by_cases hc : cur = []
      · have habs : absStep ⟨pss, cur, len⟩ para = ⟨pss, cur, len⟩ := by
          simp [absStep, htok, hc]
        rw [habs, ih]
      · have habs : absStep ⟨pss, cur, len⟩ para = ⟨pss ++ [cur], [], 0⟩ := by
          simp [absStep, htok, hc]
        rw [habs, ih]
        simp [List.flatten_append, List.append_assoc]
    · have hfil : (para :: rest).filter (fun p => p != pageBreakTok) =
          para :: rest.filter (fun p => p != pageBreakTok) := by
        simp [List.filter_cons, htok]
      rw [hfil]
      by_cases hhead : is_heading para = true
      · by_cases hc : cur = []
        · have habs : absStep ⟨pss, cur, len⟩ para = ⟨pss, [para], para.length⟩ := by
            simp [absStep, htok, hhead, hc]
          rw [habs, ih, hc]
          simp
        · by_cases horph : pss ≠ [] ∧ len < MIN_CHARS_PER_PAGE
          · have habs : absStep ⟨pss, cur, len⟩ para =
                ⟨pss.dropLast ++ [pss.getLastD [] ++ cur], [para], para.length⟩ := by
              simp [absStep, htok, hhead, hc, horph]
            rw [habs, ih]
            have hkey : ∀ X : List Str, pss.dropLast.flatten ++ ((pss.getLast?).getD [] ++ X) =
                pss.flatten ++ X := by
              intro X
              rw [← List.getLastD_eq_getLast?, ← List.append_assoc]
              conv_rhs => rw [← dropLast_append_getLastD horph.1]
              simp [List.flatten_append]
            simp [List.flatten_append, List.append_assoc, hkey]
          · have habs : absStep ⟨pss, cur, len⟩ para = ⟨pss ++ [cur], [para], para.length⟩ := by
              simp only [absStep, if_neg htok, hhead, if_true, if_neg hc, if_neg horph]
            rw [habs, ih]
            simp [List.flatten_append, List.append_assoc]
      · have hhead' : is_heading para = false := by simpa using hhead
        by_cases hover : cur ≠ [] ∧ len + para.length > TARGET_CHARS_PER_PAGE
        · have habs : absStep ⟨pss, cur, len⟩ para = ⟨pss ++ [cur], [para], para.length⟩ := by
            simp only [absStep, if_neg htok, hhead', Bool.false_eq_true, if_false, if_pos hover]
          rw [habs, ih]
          simp [List.flatten_append, List.append_assoc]
        · have habs : absStep ⟨pss, cur, len⟩ para =
              ⟨pss, cur ++ [para], len + para.length⟩ := by
            simp only [absStep, if_neg htok, hhead', Bool.false_eq_true, if_false, if_neg hover]
          rw [habs, ih]
          simp [List.append_assoc]

theorem packAbs_flatten (paras : List Str) :
    (packAbs paras).flatten = paras.filter (fun p => p != pageBreakTok) := by
  have hff := foldAbs_flatten paras [] [] 0
  unfold packAbs
  rcases habs : paras.foldl absStep ⟨[], [], 0⟩ with ⟨pss2, cur2, len2⟩
  rw [habs] at hff
  simp only [List.flatten_nil, List.nil_append] at hff
  by_cases hc : cur2 = []
  · rw [if_pos hc]
    rw [hc, List.append_nil] at hff
    exact hff
  · rw [if_neg hc]
    rw [List.flatten_append]
    simpa using hff

theorem HO_joinNN {ps : List Str} (h : GoodList ps) :
    isHeadingOnlyPage (joinNN ps) = absHO ps := by
  unfold isHeadingOnlyPage absHO
  rw [good_blocksOf h.1 h.2]

theorem repairGo_abs : ∀ (n : Nat) (done todo : List (List Str)), todo.length ≤ n →
    (∀ ps ∈ done, GoodList ps) → (∀ ps ∈ todo, GoodList ps) →
    repairGo (done.map joinNN) (todo.map joinNN) = (repairGoAbs done todo).map joinNN ∧
    (∀ ps ∈ repairGoAbs done todo, GoodList ps) ∧
    (repairGoAbs done todo).flatten = done.flatten ++ todo.flatten := by
  intro n
  induction n with
  | zero =>
    intro done todo h hdone htodo
    have ht : todo = [] := List.eq_nil_of_length_eq_zero (by omega)
    subst ht
    rw [List.map_nil, repairGo_nil, repairGoAbs_nil]
    exact ⟨rfl, hdone, by simp⟩
  | succ n ih =>
    intro done todo h hdone htodo
    match todo with
    | [] =>
      rw [List.map_nil, repairGo_nil, repairGoAbs_nil]
      exact ⟨rfl, hdone, by simp⟩
    | [ps] =>
      rw [repairGoAbs_single]
      refine ⟨by simp [repairGo_single], ?_, by simp⟩
      intro x hx
      rcases List.mem_append.mp hx with h1 | h2
      · exact hdone x h1
      · have : x = ps := by simpa using h2
        rw [this]
        exact htodo ps (List.mem_cons_self _ _)
    | ps :: qs :: rest =>
      have hps := htodo ps (List.mem_cons_self _ _)
      have hqs := htodo qs (List.mem_cons_of_mem _ (List.mem_cons_self _ _))
      rw [List.map_cons, List.map_cons, repairGo_cons, repairGoAbs_cons, HO_joinNN hps]
      by_cases hHO : absHO ps = true
      · rw [if_pos hHO, if_pos hHO]
        have hjoin : joinNN ps ++ sepNN ++ joinNN qs = joinNN (ps ++ qs) :=
          (joinNN_append hps.1 hqs.1).symm
        rw [hjoin]
        have hgood' : ∀ x ∈ (ps ++ qs) :: rest, GoodList x := by
          intro x hx
          rcases List.mem_cons.mp hx with h1 | h2
          · rw [h1]
            constructor
            · intro hn
              rw [List.append_eq_nil] at hn
              exact hps.1 hn.1
            · intro p hp
              rcases List.mem_append.mp hp with h3 | h4
              · exact hps.2 p h3
              · exact hqs.2 p h4
          · exact htodo x (List.mem_cons_of_mem _ (List.mem_cons_of_mem _ h2))
        obtain ⟨h1, h2, h3⟩ := ih done ((ps ++ qs) :: rest)
          (by simp only [List.length_cons] at h ⊢; omega) hdone hgood'
        refine ⟨by simpa using h1, h2, ?_⟩
        rw [h3]
        simp [List.append_assoc]
      · rw [if_neg hHO, if_neg hHO]
        have hdone' : ∀ x ∈ done ++ [ps], GoodList x := by
          intro x hx
          rcases List.mem_append.mp hx with h1 | h2
          · exact hdone x h1
          · have : x = ps := by simpa using h2
            rw [this]
            exact hps
        obtain ⟨h1, h2, h3⟩ := ih (done ++ [ps]) (qs :: rest)
          (by simp only [List.length_cons] at h ⊢; omega) hdone'
          (fun x hx => htodo x (List.mem_cons_of_mem _ hx))
        refine ⟨by simpa using h1, h2, ?_⟩
        rw [h3]
        simp [List.append_assoc]

theorem repairGoAbs_id : ∀ (n : Nat) (done todo : List (List Str)), todo.length ≤ n →
    (∀ ps ∈ todo, absHO ps = false) → repairGoAbs done todo = done ++ todo := by
  intro n
  induction n with
  | zero =>
    intro done todo h _
    have ht : todo = [] := List.eq_nil_of_length_eq_zero (by omega)
    subst ht
    rw [repairGoAbs_nil, List.append_nil]
  | succ n ih =>
    intro done todo h hno
    match todo with
    | [] => rw [repairGoAbs_nil, List.append_nil]
    | [ps] => rw [repairGoAbs_single]
    | ps :: qs :: rest =>
      rw [repairGoAbs_cons, if_neg (by rw [hno ps (List.mem_cons_self _ _)]; simp)]
      rw [ih (done ++ [ps]) (qs :: rest) (by simp only [List.length_cons] at h ⊢; omega)
        (fun x hx => hno x (List.mem_cons_of_mem _ hx))]
      simp

theorem build_abs (paras : List Str)
    (h : ∀ p ∈ paras, p = pageBreakTok ∨ GoodPara p = true) :
    build_pages_from_paragraphs paras = (repairGoAbs [] (packAbs paras)).map joinNN ∧
    (∀ ps ∈ repairGoAbs [] (packAbs paras), GoodList ps) ∧
    (repairGoAbs [] (packAbs paras)).flatten = paras.filter (fun p => p != pageBreakTok) := by
  obtain ⟨hsim, hgood⟩ := packPages_abs paras h
  obtain ⟨heq, hg, hflat⟩ := repairGo_abs (packAbs paras).length [] (packAbs paras)
    le_rfl (by simp) hgood
  refine ⟨?_, hg, ?_⟩
  · rw [build_eq_go, hsim]
    simpa using heq
  · rw [hflat]
    simpa using packAbs_flatten paras

/-! ## Budget invariant (no-heading inputs) -/

theorem sumLens_append (a b : List Str) : sumLens (a ++ b) = sumLens a + sumLens b := by
  simp [sumLens]

theorem foldAbs_budget : ∀ (paras : List Str) (pss : List (List Str)) (cur : List Str) (len : Nat),
    (∀ p ∈ paras, is_heading p = false) →
    (∀ ps ∈ pss, BOk ps) → BOk cur → len = sumLens cur →
    (∀ ps ∈ (paras.foldl absStep ⟨pss, cur, len⟩).pss, BOk ps) ∧
    BOk (paras.foldl absStep ⟨pss, cur, len⟩).current ∧
    (paras.foldl absStep ⟨pss, cur, len⟩).current_len =
      sumLens (paras.foldl absStep ⟨pss, cur, len⟩).current := by
  intro paras
  induction paras with
  | nil =>
    intro pss cur len _ h1 h2 h3
    exact ⟨h1, h2, h3⟩
  | cons para rest ih =>
    intro pss cur len hall h1 h2 h3
    rw [List.foldl_cons]
    have hpssext : BOk cur → ∀ ps ∈ pss ++ [cur], BOk ps := by
      intro hcur ps hps
      rcases List.mem_append.mp hps with ha | hb
      · exact h1 ps ha
      · have : ps = cur := by simpa using hb
        rw [this]
        exact hcur
    have hrest : ∀ p ∈ rest, is_heading p = false :=
      fun p hp => hall p (List.mem_cons_of_mem _ hp)
    by_cases htok : para = pageBreakTok
    · by_cases hc : cur = []
      · have habs : absStep ⟨pss, cur, len⟩ para = ⟨pss, cur, len⟩ := by
          simp [absStep, htok, hc]
        rw [habs]
        exact ih pss cur len hrest h1 h2 h3
      · have habs : absStep ⟨pss, cur, len⟩ para = ⟨pss ++ [cur], [], 0⟩ := by
          simp [absStep, htok, hc]
        rw [habs]
        refine ih _ _ _ hrest (hpssext h2) (Or.inl (by simp [sumLens])) (by simp [sumLens])
    · have hhead : is_heading para = false := hall para (List.mem_cons_self _ _)
      by_cases hover : cur ≠ [] ∧ len + para.length > TARGET_CHARS_PER_PAGE
      · have habs : absStep ⟨pss, cur, len⟩ para = ⟨pss ++ [cur], [para], para.length⟩ := by
          simp only [absStep, if_neg htok, hhead, Bool.false_eq_true, if_false, if_pos hover]
        rw [habs]
        refine ih _ _ _ hrest (hpssext h2) (Or.inr ⟨para, rfl⟩) (by simp [sumLens])
      · have habs : absStep ⟨pss, cur, len⟩ para =
            ⟨pss, cur ++ [para], len + para.length⟩ := by
          simp only [absStep, if_neg htok, hhead, Bool.false_eq_true, if_false, if_neg hover]
        rw [habs]
        refine ih _ _ _ hrest h1 ?_ (by rw [sumLens_append, h3]; simp [sumLens])
        by_cases hc : cur = []
        · right
          exact ⟨para, by rw [hc]; rfl⟩
        · left
          have hle : len + para.length ≤ TARGET_CHARS_PER_PAGE := by
            rcases Decidable.not_and_iff_or_not.mp hover with hcc | hgt
            · exact absurd hc (by simpa using hcc)
            · omega
          rw [sumLens_append, ← h3]
          simpa [sumLens] using hle

theorem packAbs_budget (paras : List Str) (h : ∀ p ∈ paras, is_heading p = false) :
    ∀ ps ∈ packAbs paras, BOk ps := by
  obtain ⟨h1, h2, _⟩ := foldAbs_budget paras [] [] 0 h (by simp)
    (Or.inl (by simp [sumLens])) (by simp [sumLens])
  unfold packAbs
  rcases habs : paras.foldl absStep ⟨[], [], 0⟩ with ⟨pss2, cur2, len2⟩
  rw [habs] at h1 h2
  by_cases hc : cur2 = []
  · rw [if_pos hc]
    exact h1
  · rw [if_neg hc]
    intro ps hps
    rcases List.mem_append.mp hps with ha | hb
    · exact h1 ps ha
    · have : ps = cur2 := by simpa using hb
      rw [this]
      exact h2

/-! ## Blank input and miscellaneous helpers -/

theorem foldl_parse_blank : ∀ (lines : List Str),
    (∀ l ∈ lines, stripStr (rstripCR l) = []) →
    lines.foldl parseStep ([], []) = ([], []) := by
  intro lines
  induction lines with
  | nil => intro _; rfl
  | cons raw rest ih =>
    intro h
    rw [List.foldl_cons]
    have hb := h raw (List.mem_cons_self _ _)
    have hsent : ¬ stripStr (rstripCR raw) = pageSentinel := by
      rw [hb]
      decide
    have hstep : parseStep ([], []) raw = ([], []) := by
      simp only [parseStep]
      rw [if_neg hsent, if_pos hb]
      simp
    rw [hstep]
    exact ih (fun l hl => h l (List.mem_cons_of_mem _ hl))

theorem parse_blank (text : Str)
    (h : ∀ l ∈ splitLines text, stripStr (rstripCR l) = []) :
    parse_paragraphs text = [] := by
  unfold parse_paragraphs
  rw [foldl_parse_blank _ h]
  rfl

theorem build_nil : build_pages_from_paragraphs [] = [] := by
  rw [build_eq_buildFuel]
  rfl

theorem isPrefixOf_append_self : ∀ (l m : Str), List.isPrefixOf l (l ++ m) = true := by
  intro l
  induction l with
  | nil =>
    intro m
    simp
  | cons a t ih =>
    intro m
    rw [List.cons_append, List.isPrefixOf_cons₂, ih m]
    simp

theorem startsWith_hashSpace_append_nl (l1 m : Str) :
    startsWith hashSpace (l1 ++ '\n' :: m) = startsWith hashSpace l1 := by
  match l1 with
  | [] =>
    show List.isPrefixOf ['#', ' '] ('\n' :: m) = List.isPrefixOf ['#', ' '] []
    simp [List.isPrefixOf]
  | [a] =>
    show List.isPrefixOf ['#', ' '] (a :: '\n' :: m) = List.isPrefixOf ['#', ' '] [a]
    simp [List.isPrefixOf]
  | a :: b :: t =>
    show List.isPrefixOf ['#', ' '] (a :: b :: (t ++ '\n' :: m)) =
      List.isPrefixOf ['#', ' '] (a :: b :: t)
    simp [List.isPrefixOf]

theorem nl_mem_of_two_lines {p l1 : Str} {rest : List Str}
    (hsplit : splitLines p = l1 :: rest) (hrest : rest ≠ []) : '\n' ∈ p := by
  have hj : joinNl (l1 :: rest) = p := by
    rw [← hsplit, joinNl_splitLines]
  cases hr : rest with
  | nil => exact absurd hr hrest
  | cons r2 rs =>
    rw [hr] at hj
    rw [← hj]
    simp only [joinNl]
    exact List.mem_append_right _ (List.mem_cons_self _ _)

/-! ## Order lemmas for the reference index -/

theorem strLt_irrefl : ∀ (s : Str), strLt s s = false := by
  intro s
  induction s with
  | nil => rfl
  | cons x t ih =>
    rw [strLt, if_neg (lt_irrefl x), if_pos rfl]
    exact ih

theorem strLt_trans : ∀ {a b c : Str}, strLt a b = true → strLt b c = true →
    strLt a c = true := by
  intro a
  induction a with
  | nil =>
    intro b c hab hbc
    cases c with
    | nil =>
      cases b with
      | nil => simp [strLt] at hbc
      | cons y bs => simp [strLt] at hbc
    | cons z cs => simp [strLt]
  | cons x as ih =>
    intro b c hab hbc
    cases b with
    | nil => simp [strLt] at hab
    | cons y bs =>
      cases c with
      | nil => simp [strLt] at hbc
      | cons z cs =>
        rw [strLt] at hab hbc ⊢
        by_cases h1 : x < y
        · by_cases h2 : y < z
          · rw [if_pos (lt_trans h1 h2)]
          · by_cases h3 : y = z
            · subst h3
              rw [if_pos h1]
            · rw [if_neg h2, if_neg h3] at hbc
              exact absurd hbc (by simp)
        · by_cases h1' : x = y
          · subst h1'
            rw [if_neg h1, if_pos rfl] at hab
            by_cases h2 : x < z
            · rw [if_pos h2]
            · by_cases h3 : x = z
              · subst h3
                rw [if_neg h2, if_pos rfl] at hbc ⊢
                exact ih hab hbc
              · rw [if_neg h2, if_neg h3] at hbc
                exact absurd hbc (by simp)
          · rw [if_neg h1, if_neg h1'] at hab
            exact absurd hab (by simp)

theorem strLt_or (a : Str) : ∀ (b : Str), a = b ∨ strLt a b = true ∨ strLt b a = true := by
  induction a with
  | nil =>
    intro b
    cases b with
    | nil => exact Or.inl rfl
    | cons y bs => exact Or.inr (Or.inl (by simp [strLt]))
  | cons x as ih =>
    intro b
    cases b with
    | nil => exact Or.inr (Or.inr (by simp [strLt]))
    | cons y bs =>
      rcases lt_trichotomy x y with h | h | h
      · exact Or.inr (Or.inl (by rw [strLt, if_pos h]))
      · subst h
        rcases ih bs with h2 | h2 | h2
        · exact Or.inl (by rw [h2])
        · exact Or.inr (Or.inl (by rw [strLt, if_neg (lt_irrefl x), if_pos rfl]; exact h2))
        · exact Or.inr (Or.inr (by rw [strLt, if_neg (lt_irrefl x), if_pos rfl]; exact h2))
      · exact Or.inr (Or.inr (by rw [strLt, if_pos h]))

theorem refLE_total (a b : RefRec) : refLE a b = true ∨ refLE b a = true := by
  unfold refLE
  by_cases h : lowerStr a.bookTitle = lowerStr b.bookTitle
  · rw [if_pos h, if_pos h.symm]
    rcases Nat.le_total a.page b.page with h1 | h1
    · exact Or.inl (by simpa using h1)
    · exact Or.inr (by simpa using h1)
  · rw [if_neg h, if_neg (Ne.symm h)]
    rcases strLt_or (lowerStr a.bookTitle) (lowerStr b.bookTitle) with h1 | h1 | h1
    · exact absurd h1 h
    · exact Or.inl h1
    · exact Or.inr h1

theorem refLE_trans {a b c : RefRec} (h1 : refLE a b = true) (h2 : refLE b c = true) :
    refLE a c = true := by
  unfold refLE at h1 h2 ⊢
  by_cases hab : lowerStr a.bookTitle = lowerStr b.bookTitle
  · by_cases hbc : lowerStr b.bookTitle = lowerStr c.bookTitle
    · rw [if_pos (hab.trans hbc)]
      rw [if_pos hab] at h1
      rw [if_pos hbc] at h2
      simp only [decide_eq_true_eq] at h1 h2 ⊢
      omega
    · rw [if_pos hab] at h1
      rw [if_neg hbc] at h2
      rw [if_neg (by rw [hab]; exact hbc), hab]
      exact h2
  · rw [if_neg hab] at h1
    by_cases hbc : lowerStr b.bookTitle = lowerStr c.bookTitle
    · rw [if_neg (by rw [← hbc]; exact hab), ← hbc]
      exact h1
    · rw [if_neg hbc] at h2
      have hac := strLt_trans h1 h2
      have hne : lowerStr a.bookTitle ≠ lowerStr c.bookTitle := by
        intro he
        rw [he] at hac
        rw [strLt_irrefl] at hac
        exact Bool.false_ne_true hac
      rw [if_neg hne]
      exact hac

theorem dedupRefs_sublist : ∀ (l : List RefRec) (seen : List (Str × Nat)),
    List.Sublist (dedupRefs seen l) l := by
  intro l
  induction l with
  | nil =>
    intro seen
    simp [dedupRefs]
  | cons r rest ih =>
    intro seen
    by_cases h : refKey r ∈ seen
    · rw [dedupRefs, if_pos h]
      exact List.Sublist.cons _ (ih seen)
    · rw [dedupRefs, if_neg h]
      exact List.Sublist.cons₂ _ (ih _)

theorem dedupRefs_keys : ∀ (l : List RefRec) (seen : List (Str × Nat)),
    (∀ r ∈ dedupRefs seen l, refKey r ∉ seen) ∧
    List.Pairwise (fun a b => refKey a ≠ refKey b) (dedupRefs seen l) := by
  intro l
  induction l with
  | nil =>
    intro seen
    constructor
    · intro r hr
      simp [dedupRefs] at hr
    · simp [dedupRefs]
  | cons r rest ih =>
    intro seen
    by_cases h : refKey r ∈ seen
    · rw [dedupRefs, if_pos h]
      exact ih seen
    · rw [dedupRefs, if_neg h]
      obtain ⟨ih1, ih2⟩ := ih (refKey r :: seen)
      constructor
      · intro x hx
        rcases List.mem_cons.mp hx with h1 | h2
        · rw [h1]
          exact h
        · intro hc
          exact ih1 x h2 (List.mem_cons_of_mem _ hc)
      · rw [List.pairwise_cons]
        refine ⟨?_, ih2⟩
        intro x hx he
        exact ih1 x hx (he ▸ List.mem_cons_self _ _)


/-! ## Symbolic evaluation helpers for concrete inputs -/

theorem ne_of_length_ne {a b : Str} (h : a.length ≠ b.length) : a ≠ b := by
  intro he
  rw [he] at h
  exact h rfl

theorem dropWhile_all_neg {p : Char → Bool} : ∀ {l : Str}, (∀ x ∈ l, p x = false) →
    l.dropWhile p = l := by
  intro l h
  cases l with
  | nil => rfl
  | cons a t =>
    exact List.dropWhile_cons_of_neg (by simp [h a (List.mem_cons_self _ _)])

theorem rstripCR_id {s : Str} (h : ∀ ch ∈ s, ch ≠ '\r') : rstripCR s = s := by
  have hd : s.reverse.dropWhile (· == '\r') = s.reverse := by
    apply dropWhile_all_neg
    intro x hx
    have := h x (List.mem_reverse.mp hx)
    simp [this]
  unfold rstripCR
  rw [hd, List.reverse_reverse]

theorem replicate_good {n : Nat} {c : Char} (hn : n ≠ 0) (hc : isPyWs c = false) :
    GoodPara (List.replicate n c) = true := by
  obtain ⟨m, rfl⟩ : ∃ m, n = m + 1 := ⟨n - 1, by omega⟩
  unfold GoodPara
  simp only [Bool.and_eq_true, Bool.not_eq_true']
  refine ⟨⟨⟨?_, ?_⟩, ?_⟩, ?_⟩
  · simp
  · rw [List.replicate_succ]
    simpa using hc
  · rw [List.getLastD_eq_getLast?, List.getLast?_eq_head?_reverse, List.reverse_replicate,
      List.replicate_succ]
    simpa using hc
  · apply no_nl_hasNN
    intro hm
    rw [List.mem_replicate] at hm
    rw [← hm.2] at hc
    exact absurd hc (by decide)

theorem mem_replicate_ne {n : Nat} {c d : Char} (h : d ≠ c) :
    ∀ ch ∈ List.replicate n c, ch ≠ d := by
  intro ch hch
  rw [List.mem_replicate] at hch
  rw [hch.2]
  exact fun he => h he.symm

theorem is_heading_replicate (n : Nat) {c : Char} (hws : isPyWs c = false) (hch : c ≠ '#') :
    is_heading (List.replicate n c) = false := by
  cases n with
  | zero => rfl
  | succ m =>
    unfold is_heading startsWith
    rw [List.replicate_succ]
    have hl : lstripStr (c :: List.replicate m c) = c :: List.replicate m c := by
      unfold lstripStr
      exact List.dropWhile_cons_of_neg (by simp [hws])
    rw [hl, show hashSpace = ['#', ' '] from rfl, List.isPrefixOf_cons₂]
    have : ('#' == c) = false := by
      simp
      exact fun he => hch he.symm
    rw [this]
    simp

theorem splitLines_single : ∀ (s : Str), (∀ ch ∈ s, ch ≠ '\n') → splitLines s = [s] := by
  intro s
  induction s with
  | nil => intro _; rfl
  | cons a t ih =>
    intro h
    have ha : a ≠ '\n' := h a (List.mem_cons_self _ _)
    have ht : splitLines t = [t] := ih (fun ch hch => h ch (List.mem_cons_of_mem _ hch))
    simp [splitLines, ha, ht]

theorem splitLines_cons_nl (rest : Str) : splitLines ('\n' :: rest) = [] :: splitLines rest := by
  simp [splitLines]

theorem splitLines_append_nl : ∀ (l1 : Str), ∀ (rest : Str), '\n' ∉ l1 →
    splitLines (l1 ++ '\n' :: rest) = l1 :: splitLines rest := by
  intro l1
  induction l1 with
  | nil =>
    intro rest _
    rw [List.nil_append, splitLines_cons_nl]
  | cons a t ih =>
    intro rest h
    have ha : a ≠ '\n' := fun he => h (he ▸ List.mem_cons_self _ _)
    have ht := ih rest (fun hm => h (List.mem_cons_of_mem _ hm))
    rw [List.cons_append]
    simp [splitLines, ha, ht]

theorem parseStep_content (st : List Str × List Str) (raw : Str)
    (hcr : ∀ ch ∈ raw, ch ≠ '\r')
    (hsent : stripStr raw ≠ pageSentinel) (hblank : stripStr raw ≠ []) :
    parseStep st raw = (st.1, st.2 ++ [raw]) := by
  have hid : rstripCR raw = raw := rstripCR_id hcr
  simp only [parseStep, hid]
  rw [if_neg hsent, if_neg hblank]

theorem parseStep_blank_nil (st : List Str × List Str) :
    parseStep st [] =
      (if st.2 = [] then st.1 else st.1 ++ [stripStr (joinNl st.2)], []) := by
  have hid : rstripCR [] = [] := rfl
  have h0 : stripStr ([] : Str) = [] := rfl
  simp only [parseStep, hid]
  rw [if_neg (by decide : ¬ stripStr [] = pageSentinel), if_pos h0]

theorem build_single {p : Str} (htok : p ≠ pageBreakTok) (hhead : is_heading p = false) :
    build_pages_from_paragraphs [p] = [p] := by
  have hstep : packStep ⟨[], [], 0⟩ p = ⟨[], [p], p.length⟩ := by
    simp [packStep, htok, hhead]
  have hflush : packPages [p] = [p] := by
    unfold packPages
    rw [List.foldl_cons, List.foldl_nil, hstep]
    simp [joinNN]
  unfold build_pages_from_paragraphs
  rw [hflush]
  unfold repairLoop
  rw [dif_neg (by simp)]

/-! ## Claims -/

/-- Claim C1: for every input paragraph sequence, after the Page Repair Pass
completes, no Page in the output other than the last one is heading-only:
every page before the last fails the heading-only test. -/
theorem claim_C1 (paragraphs : List Str) :
    ∀ page ∈ (build_pages_from_paragraphs paragraphs).dropLast,
      isHeadingOnlyPage page = false := by
  rw [build_eq_go]
  exact repairGo_dropLast_no_HO (packPages paragraphs).length [] _ le_rfl (by simp)

/-- Witness for C1 at a concrete input producing two pages. -/
theorem claim_C1_witness : isHeadingOnlyPage (['a'] : Str) = false := by
  apply claim_C1 [['a'], pageBreakTok, ['b']] ['a']
  rw [build_eq_buildFuel]
  decide

/-- Claim C2: when the Packer reaches a heading Paragraph while pending
content is accumulated, then if at least one completed Page exists and the
pending length is below the 450-character threshold, the pending content is
appended (joined by the blank-line separator) onto the previous completed
Page; if no previous completed Page exists, the pending content is
finalized as its own Page (first chapter exception). -/
theorem claim_C2 (st : PackSt) (para : Str)
    (hh : is_heading para = true) (hc : st.current ≠ []) :
    (st.pages ≠ [] → st.current_len < MIN_CHARS_PER_PAGE →
      packStep st para = ⟨st.pages.dropLast ++
        [joinNN [st.pages.getLastD [], joinNN st.current]], [para], para.length⟩) ∧
    (st.pages = [] →
      packStep st para = ⟨st.pages ++ [joinNN st.current], [para], para.length⟩) := by
  have htok : ¬ para = pageBreakTok := by
    intro he
    rw [he] at hh
    exact absurd hh (by decide)
  constructor
  · intro hp hlen
    unfold packStep
    rw [if_neg htok, if_pos hh, if_neg hc, if_pos (And.intro hp hlen)]
  · intro hp
    have hno : ¬ (st.pages ≠ [] ∧ st.current_len < MIN_CHARS_PER_PAGE) := by
      intro hcon
      exact hcon.1 hp
    unfold packStep
    rw [if_neg htok, if_pos hh, if_neg hc, if_neg hno]

/-- Witness for C2 at concrete packer states (with and without a previous
completed page). -/
theorem claim_C2_witness :
    packStep ⟨[['x']], [['y']], 1⟩ "# H".toList =
      ⟨([['x']] : List Str).dropLast ++
        [joinNN [([['x']] : List Str).getLastD [], joinNN [['y']]]],
        ["# H".toList], ("# H".toList).length⟩ ∧
    packStep ⟨[], [['y']], 1⟩ "# H".toList =
      ⟨([] : List Str) ++ [joinNN [['y']]], ["# H".toList], ("# H".toList).length⟩ := by
  constructor
  · exact (claim_C2 ⟨[['x']], [['y']], 1⟩ "# H".toList (by decide) (by decide)).1
      (by decide) (by decide)
  · exact (claim_C2 ⟨[], [['y']], 1⟩ "# H".toList (by decide) (by decide)).2 rfl

/-- Claim C3 (amended): for every manuscript whose paragraphs include no
heading, any final output Page whose total paragraph length exceeds the
1000-character budget consists of exactly one paragraph, whose own length
exceeds the budget.  (The unrestricted claim is false: the orphan-merge
before a heading can exceed the budget with no oversized paragraph, see the
counterexample.) -/
theorem claim_C3 (text : Str)
    (hnohead : ∀ p ∈ parse_paragraphs text, is_heading p = false) :
    ∀ page ∈ build_pages_from_paragraphs (parse_paragraphs text),
      sumLens (splitNN page) > TARGET_CHARS_PER_PAGE →
      ∃ b, splitNN page = [b] ∧ b.length > TARGET_CHARS_PER_PAGE := by
  obtain ⟨hmap, hg, hflat⟩ := build_abs (parse_paragraphs text) (parse_good text)
  intro page hpage hsum
  rw [hmap, List.mem_map] at hpage
  obtain ⟨ps, hps, rfl⟩ := hpage
  have hgps := hg ps hps
  have hsplit : splitNN (joinNN ps) = ps := splitNN_joinNN hgps.1
    (fun p hp => ⟨good_noNN (hgps.2 p hp), good_getLast?_ne_nl (hgps.2 p hp)⟩)
  rw [hsplit] at hsum ⊢
  have hid : repairGoAbs [] (packAbs (parse_paragraphs text)) =
      packAbs (parse_paragraphs text) := by
    have habs : ∀ qs ∈ packAbs (parse_paragraphs text), absHO qs = false := by
      intro qs hqs
      cases hq : qs with
      | nil => rfl
      | cons p t =>
        cases t with
        | nil =>
          show startsWith hashSpace (lstripStr p) = false
          have hpmem : p ∈ (packAbs (parse_paragraphs text)).flatten := by
            rw [List.mem_flatten]
            exact ⟨qs, hqs, by rw [hq]; exact List.mem_cons_self _ _⟩
          rw [packAbs_flatten] at hpmem
          exact hnohead p (List.mem_filter.mp hpmem).1
        | cons q t2 => rfl
    have := repairGoAbs_id (packAbs (parse_paragraphs text)).length [] _ le_rfl habs
    simpa using this
  rw [hid] at hps
  rcases packAbs_budget (parse_paragraphs text) hnohead ps hps with hle | ⟨b, hb⟩
  · omega
  · refine ⟨b, hb, ?_⟩
    rw [hb] at hsum
    simpa [sumLens] using hsum

/-- Counterexample to C3 as stated: a manuscript for which the orphan-merge
produces a page of total length 1100 all of whose paragraphs have length at
most 500. -/
theorem claim_C3_counterexample :
    ∃ page ∈ build_pages_from_paragraphs (parse_paragraphs
        (List.replicate 500 'a' ++ sepNN ++ List.replicate 500 'b' ++ sepNN ++
          List.replicate 100 'c' ++ "\n\n# Z\n\nEnd.".toList)),
      sumLens (splitNN page) > TARGET_CHARS_PER_PAGE ∧
      ∀ b ∈ splitNN page, b.length ≤ TARGET_CHARS_PER_PAGE := by
  generalize hA : List.replicate 500 'a' = A
  generalize hB : List.replicate 500 'b' = B
  generalize hC : List.replicate 100 'c' = C
  have hgA : GoodPara A = true := by rw [← hA]; exact replicate_good (by omega) (by decide)
  have hgB : GoodPara B = true := by rw [← hB]; exact replicate_good (by omega) (by decide)
  have hgC : GoodPara C = true := by rw [← hC]; exact replicate_good (by omega) (by decide)
  have hlA : A.length = 500 := by rw [← hA]; simp
  have hlB : B.length = 500 := by rw [← hB]; simp
  have hlC : C.length = 100 := by rw [← hC]; simp
  have hnlA : '\n' ∉ A := by
    rw [← hA]
    intro hm
    exact mem_replicate_ne (by decide) '\n' hm rfl
  have hnlB : '\n' ∉ B := by
    rw [← hB]
    intro hm
    exact mem_replicate_ne (by decide) '\n' hm rfl
  have hnlC : '\n' ∉ C := by
    rw [← hC]
    intro hm
    exact mem_replicate_ne (by decide) '\n' hm rfl
  have hcrA : ∀ ch ∈ A, ch ≠ '\r' := by rw [← hA]; exact mem_replicate_ne (by decide)
  have hcrB : ∀ ch ∈ B, ch ≠ '\r' := by rw [← hB]; exact mem_replicate_ne (by decide)
  have hcrC : ∀ ch ∈ C, ch ≠ '\r' := by rw [← hC]; exact mem_replicate_ne (by decide)
  have hsA : stripStr A = A := good_strip hgA
  have hsB : stripStr B = B := good_strip hgB
  have hsC : stripStr C = C := good_strip hgC
  have hsentA : stripStr A ≠ pageSentinel := by
    rw [hsA]
    exact ne_of_length_ne (by rw [hlA]; decide)
  have hsentB : stripStr B ≠ pageSentinel := by
    rw [hsB]
    exact ne_of_length_ne (by rw [hlB]; decide)
  have hsentC : stripStr C ≠ pageSentinel := by
    rw [hsC]
    exact ne_of_length_ne (by rw [hlC]; decide)
  have hbA : stripStr A ≠ [] := by rw [hsA]; exact good_ne_nil hgA
  have hbB : stripStr B ≠ [] := by rw [hsB]; exact good_ne_nil hgB
  have hbC : stripStr C ≠ [] := by rw [hsC]; exact good_ne_nil hgC
  have hheadA : is_heading A = false := by
    rw [← hA]
    exact is_heading_replicate _ (by decide) (by decide)
  have hheadB : is_heading B = false := by
    rw [← hB]
    exact is_heading_replicate _ (by decide) (by decide)
  have hheadC : is_heading C = false := by
    rw [← hC]
    exact is_heading_replicate _ (by decide) (by decide)
  have htokA : A ≠ pageBreakTok := ne_of_length_ne (by rw [hlA]; decide)
  have htokB : B ≠ pageBreakTok := ne_of_length_ne (by rw [hlB]; decide)
  have htokC : C ≠ pageBreakTok := ne_of_length_ne (by rw [hlC]; decide)
  have htail : "\n\n# Z\n\nEnd.".toList =
      '\n' :: '\n' :: ("# Z".toList ++ '\n' :: '\n' :: "End.".toList) := by decide
  have hshape : A ++ sepNN ++ B ++ sepNN ++ C ++ "\n\n# Z\n\nEnd.".toList =
      A ++ '\n' :: '\n' :: (B ++ '\n' :: '\n' ::
        (C ++ '\n' :: '\n' :: ("# Z".toList ++ '\n' :: '\n' :: "End.".toList))) := by
    rw [htail]
    simp [sepNN, List.append_assoc]
  have hsl : splitLines (A ++ '\n' :: '\n' :: (B ++ '\n' :: '\n' ::
      (C ++ '\n' :: '\n' :: ("# Z".toList ++ '\n' :: '\n' :: "End.".toList)))) =
      [A, [], B, [], C, [], "# Z".toList, [], "End.".toList] := by
    rw [splitLines_append_nl A _ hnlA, splitLines_cons_nl,
      splitLines_append_nl B _ hnlB, splitLines_cons_nl,
      splitLines_append_nl C _ hnlC, splitLines_cons_nl,
      splitLines_append_nl "# Z".toList _ (by decide), splitLines_cons_nl,
      show splitLines "End.".toList = ["End.".toList] from by decide]
  have hsH : stripStr ['#', ' ', 'Z'] = ['#', ' ', 'Z'] := by decide
  have hsE : stripStr ['E', 'n', 'd', '.'] = ['E', 'n', 'd', '.'] := by decide
  have e1 : parseStep ([], []) A = ([], [A]) := by
    rw [parseStep_content _ _ hcrA hsentA hbA]
    rfl
  have e2 : parseStep ([], [A]) [] = ([A], []) := by
    rw [parseStep_blank_nil]
    simp [joinNl, hsA]
  have e3 : parseStep ([A], []) B = ([A], [B]) := by
    rw [parseStep_content _ _ hcrB hsentB hbB]
    rfl
  have e4 : parseStep ([A], [B]) [] = ([A, B], []) := by
    rw [parseStep_blank_nil]
    simp [joinNl, hsB]
  have e5 : parseStep ([A, B], []) C = ([A, B], [C]) := by
    rw [parseStep_content _ _ hcrC hsentC hbC]
    rfl
  have e6 : parseStep ([A, B], [C]) [] = ([A, B, C], []) := by
    rw [parseStep_blank_nil]
    simp [joinNl, hsC]
  have e7 : parseStep ([A, B, C], []) "# Z".toList = ([A, B, C], ["# Z".toList]) := by
    rw [parseStep_content _ _ (by decide) (by decide) (by decide)]
    rfl
  have e8 : parseStep ([A, B, C], ["# Z".toList]) [] = ([A, B, C, "# Z".toList], []) := by
    rw [parseStep_blank_nil]
    simp [joinNl, hsH]
  have e9 : parseStep ([A, B, C, "# Z".toList], []) "End.".toList =
      ([A, B, C, "# Z".toList], ["End.".toList]) := by
    rw [parseStep_content _ _ (by decide) (by decide) (by decide)]
    rfl
  have hparse : parse_paragraphs (A ++ sepNN ++ B ++ sepNN ++ C ++ "\n\n# Z\n\nEnd.".toList) =
      [A, B, C, "# Z".toList, "End.".toList] := by
    unfold parse_paragraphs
    rw [hshape, hsl]
    rw [List.foldl_cons, e1, List.foldl_cons, e2, List.foldl_cons, e3, List.foldl_cons, e4,
      List.foldl_cons, e5, List.foldl_cons, e6, List.foldl_cons, e7, List.foldl_cons, e8,
      List.foldl_cons, e9, List.foldl_nil]
    simp [joinNl, hsE]
  have htokH : ¬ ['#', ' ', 'Z'] = pageBreakTok := by decide
  have hheadH : is_heading ['#', ' ', 'Z'] = true := by decide
  have htokE : ¬ ['E', 'n', 'd', '.'] = pageBreakTok := by decide
  have hheadE : is_heading ['E', 'n', 'd', '.'] = false := by decide
  have s1 : packStep ⟨[], [], 0⟩ A = ⟨[], [A], A.length⟩ := by
    simp [packStep, htokA, hheadA]
  have s2 : packStep ⟨[], [A], A.length⟩ B = ⟨[], [A, B], A.length + B.length⟩ := by
    have hc2 : ¬ (([A] : List Str) ≠ [] ∧ A.length + B.length > TARGET_CHARS_PER_PAGE) := by
      intro hcon
      have h2 := hcon.2
      rw [hlA, hlB] at h2
      exact absurd h2 (by decide)
    have hle2 : A.length + B.length ≤ TARGET_CHARS_PER_PAGE := by
      rw [hlA, hlB]
      decide
    simp [packStep, htokB, hheadB, hc2, hle2]
  have s3 : packStep ⟨[], [A, B], A.length + B.length⟩ C =
      ⟨[joinNN [A, B]], [C], C.length⟩ := by
    have hc3 : ([A, B] : List Str) ≠ [] ∧
        A.length + B.length + C.length > TARGET_CHARS_PER_PAGE :=
      ⟨by simp, by rw [hlA, hlB, hlC]; decide⟩
    simp [packStep, htokC, hheadC, hc3]
  have s4 : packStep ⟨[joinNN [A, B]], [C], C.length⟩ "# Z".toList =
      ⟨[joinNN [joinNN [A, B], joinNN [C]]], ["# Z".toList], ("# Z".toList).length⟩ := by
    have hc4 : ([joinNN [A, B]] : List Str) ≠ [] ∧ C.length < MIN_CHARS_PER_PAGE :=
      ⟨by simp, by rw [hlC]; decide⟩
    simp [packStep, htokH, hheadH, hc4]
  have s5 : packStep ⟨[joinNN [joinNN [A, B], joinNN [C]]], ["# Z".toList],
      ("# Z".toList).length⟩ "End.".toList =
      ⟨[joinNN [joinNN [A, B], joinNN [C]]], ["# Z".toList, "End.".toList],
        ("# Z".toList).length + ("End.".toList).length⟩ := by
    have hle5 : (7 : Nat) ≤ TARGET_CHARS_PER_PAGE := by decide
    simp [packStep, htokE, hheadE, hle5]
  have hP1 : joinNN [joinNN [A, B], joinNN [C]] = joinNN [A, B, C] := by
    rw [joinNN_pair, show joinNN [C] = C from rfl]
    have hap := joinNN_append (a := [A, B]) (b := [C]) (by simp) (by simp)
    rw [show joinNN [C] = C from rfl] at hap
    simpa using hap.symm
  have hflush : packPages [A, B, C, "# Z".toList, "End.".toList] =
      [joinNN [A, B, C], joinNN ["# Z".toList, "End.".toList]] := by
    unfold packPages
    rw [List.foldl_cons, s1, List.foldl_cons, s2, List.foldl_cons, s3, List.foldl_cons, s4,
      List.foldl_cons, s5, List.foldl_nil, hP1]
    simp
  have hgoods : ∀ p ∈ ([A, B, C] : List Str), GoodPara p = true := by
    intro p hp
    rcases List.mem_cons.mp hp with h1 | hp2
    · rw [h1]; exact hgA
    rcases List.mem_cons.mp hp2 with h2 | hp3
    · rw [h2]; exact hgB
    rcases List.mem_cons.mp hp3 with h3 | hp4
    · rw [h3]; exact hgC
    · simp at hp4
  have hsp : splitNN (joinNN [A, B, C]) = [A, B, C] :=
    splitNN_joinNN (by simp)
      (fun p hp => ⟨good_noNN (hgoods p hp), good_getLast?_ne_nl (hgoods p hp)⟩)
  have hbuild : build_pages_from_paragraphs [A, B, C, "# Z".toList, "End.".toList] =
      [joinNN [A, B, C], joinNN ["# Z".toList, "End.".toList]] := by
    unfold build_pages_from_paragraphs
    rw [hflush, repairLoop_eq_go 2 _ 0 (by simp), List.take_zero, List.drop_zero,
      repairGo_cons]
    have hHO1 : isHeadingOnlyPage (joinNN [A, B, C]) = false := by
      rw [HO_joinNN ⟨by simp, hgoods⟩]
      rfl
    rw [if_neg (by rw [hHO1]; simp), repairGo_single]
    simp
  refine ⟨joinNN [A, B, C], ?_, ?_, ?_⟩
  · rw [hparse, hbuild]
    exact List.mem_cons_self _ _
  · rw [hsp]
    simp only [sumLens, List.map_cons, List.map_nil, List.sum_cons, List.sum_nil,
      hlA, hlB, hlC]
    decide
  · intro b hb
    rw [hsp] at hb
    rcases List.mem_cons.mp hb with h1 | hb2
    · rw [h1, hlA]; decide
    rcases List.mem_cons.mp hb2 with h2 | hb3
    · rw [h2, hlB]; decide
    rcases List.mem_cons.mp hb3 with h3 | hb4
    · rw [h3, hlC]; decide
    · simp at hb4

/-- Witness for C3 at a heading-free manuscript consisting of one oversized
paragraph. -/
theorem claim_C3_witness :
    ∃ b, splitNN (List.replicate 1001 'a') = [b] ∧
      b.length > TARGET_CHARS_PER_PAGE := by
  have hgood : GoodPara (List.replicate 1001 'a') = true :=
    replicate_good (by omega) (by decide)
  have hstrip : stripStr (List.replicate 1001 'a') = List.replicate 1001 'a' :=
    good_strip hgood
  have hhead : is_heading (List.replicate 1001 'a') = false :=
    is_heading_replicate _ (by decide) (by decide)
  have hparse : parse_paragraphs (List.replicate 1001 'a') = [List.replicate 1001 'a'] := by
    have hsl : splitLines (List.replicate 1001 'a') = [List.replicate 1001 'a'] :=
      splitLines_single _ (mem_replicate_ne (by decide))
    unfold parse_paragraphs
    rw [hsl, List.foldl_cons,
      parseStep_content _ _ (mem_replicate_ne (by decide))
        (by rw [hstrip]; exact ne_of_length_ne (by simp; decide))
        (by rw [hstrip]; simp),
      List.foldl_nil]
    dsimp only [List.nil_append]
    rw [if_neg (show ¬ ([List.replicate 1001 'a'] : List Str) = [] by simp)]
    rw [show joinNl [List.replicate 1001 'a'] = List.replicate 1001 'a' from rfl, hstrip]
  have hbuild : build_pages_from_paragraphs [List.replicate 1001 'a'] =
      [List.replicate 1001 'a'] :=
    build_single (ne_of_length_ne (by simp; decide)) hhead
  have hsp : splitNN (List.replicate 1001 'a') = [List.replicate 1001 'a'] :=
    splitNN_single (good_noNN hgood)
  exact claim_C3 (List.replicate 1001 'a')
    (by rw [hparse]; intro p hp; simp at hp; rw [hp]; exact hhead)
    (List.replicate 1001 'a')
    (by rw [hparse, hbuild]; exact List.mem_cons_self _ _)
    (by rw [hsp]; simp only [sumLens, List.map_cons, List.map_nil, List.sum_cons,
        List.sum_nil, List.length_replicate]; decide)

/-- Claim C4: splitting each final output Page on the blank-line separator
and concatenating the resulting blocks in page order yields exactly the
Splitter's paragraph sequence with the forced-break tokens removed. -/
theorem claim_C4 (text : Str) :
    ((build_pages_from_paragraphs (parse_paragraphs text)).map splitNN).flatten =
      (parse_paragraphs text).filter (fun p => p != pageBreakTok) := by
  obtain ⟨hmap, hg, hflat⟩ := build_abs (parse_paragraphs text) (parse_good text)
  rw [hmap, List.map_map]
  have hcomp : ∀ (pss2 : List (List Str)), (∀ ps ∈ pss2, GoodList ps) →
      pss2.map (splitNN ∘ joinNN) = pss2 := by
    intro pss2 hall
    induction pss2 with
    | nil => rfl
    | cons a t iht =>
      rw [List.map_cons]
      have hga := hall a (List.mem_cons_self _ _)
      have ha : (splitNN ∘ joinNN) a = a := by
        show splitNN (joinNN a) = a
        exact splitNN_joinNN hga.1
          (fun p hp => ⟨good_noNN (hga.2 p hp), good_getLast?_ne_nl (hga.2 p hp)⟩)
      rw [ha, iht (fun x hx => hall x (List.mem_cons_of_mem _ hx))]
  rw [hcomp _ hg, hflat]

/-- Claim C5: the engine is total, never emits an empty Page, and
whitespace-only input yields zero pages. -/
theorem claim_C5 (text : Str) :
    (∀ page ∈ build_pages_from_paragraphs (parse_paragraphs text), page ≠ []) ∧
    ((∀ l ∈ splitLines text, stripStr (rstripCR l) = []) →
      build_pages_from_paragraphs (parse_paragraphs text) = []) := by
  constructor
  · intro page hpage
    obtain ⟨hmap, hg, _⟩ := build_abs (parse_paragraphs text) (parse_good text)
    rw [hmap, List.mem_map] at hpage
    obtain ⟨ps, hps, rfl⟩ := hpage
    have hgps := hg ps hps
    exact joinNN_ne_nil hgps.1 (fun p hp => good_ne_nil (hgps.2 p hp))
  · intro hblank
    rw [parse_blank text hblank, build_nil]

/-- Witness for C5: a page of a concrete manuscript is non-empty, and a
whitespace-only manuscript yields zero pages. -/
theorem claim_C5_witness :
    ("x".toList ≠ ([] : Str)) ∧
    build_pages_from_paragraphs (parse_paragraphs "  \n\n ".toList) = [] := by
  constructor
  · exact (claim_C5 "x".toList).1 "x".toList (by rw [build_eq_buildFuel]; decide)
  · exact (claim_C5 "  \n\n ".toList).2 (by decide)

/-- Claim C6: a forced-break token always finalizes pending content as a
completed Page with no size check; with no pending content it is a no-op;
a manuscript of two sentinel lines yields zero pages. -/
theorem claim_C6 :
    (∀ st : PackSt, st.current ≠ [] →
      packStep st pageBreakTok = ⟨st.pages ++ [joinNN st.current], [], 0⟩) ∧
    (∀ st : PackSt, st.current = [] → packStep st pageBreakTok = st) ∧
    build_pages_from_paragraphs (parse_paragraphs "===PAGE===\n===PAGE===".toList) = [] := by
  refine ⟨?_, ?_, ?_⟩
  · intro st hc
    unfold packStep
    rw [if_pos rfl, if_neg hc]
  · intro st hc
    unfold packStep
    rw [if_pos rfl, if_pos hc]
  · rw [build_eq_buildFuel]
    decide

/-- Witness for C6 at concrete packer states. -/
theorem claim_C6_witness :
    packStep ⟨[], [['a']], 1⟩ pageBreakTok = ⟨[] ++ [joinNN [['a']]], [], 0⟩ ∧
    packStep ⟨[['b']], [], 5⟩ pageBreakTok = ⟨[['b']], [], 5⟩ :=
  ⟨claim_C6.1 ⟨[], [['a']], 1⟩ (by decide), claim_C6.2.1 ⟨[['b']], [], 5⟩ rfl⟩

/-- Claim C7 (amended): the repair pass's loop terminates for every input:
each iteration strictly decreases (page count − cursor), so running the
loop body at most (initial page count) times reaches the corrected
sequence — the fuel-indexed loop with fuel equal to the initial page count
computes the loop's result.  (As stated the claim is false: an iteration
that merely advances the cursor does not shrink the page count, see the
counterexample.) -/
theorem claim_C7 (pages : List Str) :
    repairFuel pages.length pages 0 = repairLoop pages 0 :=
  repairFuel_eq pages.length pages 0 (by omega)

/-- Counterexample to C7 as stated: on two non-heading pages the first loop
iteration advances the cursor and leaves the page count unchanged. -/
theorem claim_C7_counterexample :
    0 + 1 < ([['a'], ['b']] : List Str).length ∧
    ¬ (repairFuel 1 [['a'], ['b']] 0).length < ([['a'], ['b']] : List Str).length := by
  decide

/-- Claim C8: the Packer classifies a heading by left-trimming the whole
paragraph, so a trimmed multi-line paragraph whose first line is not a
heading is not treated as one (no heading-triggered page boundary; under
the budget it is simply appended), while the renderer still turns its later
`"# "` line into a heading element. -/
theorem claim_C8 (p l1 : Str) (rest : List Str)
    (hsplit : splitLines p = l1 :: rest) (hrest : rest ≠ [])
    (hl1 : startsWith hashSpace l1 = false)
    (hlater : ∃ l ∈ rest, startsWith hashSpace (stripStr l) = true)
    (htrim : stripStr p = p) :
    is_heading p = false ∧
    (∀ st : PackSt, st.current ≠ [] →
      st.current_len + p.length ≤ TARGET_CHARS_PER_PAGE →
      packStep st p = ⟨st.pages, st.current ++ [p], st.current_len + p.length⟩) ∧
    (∃ part ∈ blockParts p, startsWith "<h2".toList part = true) := by
  have hjoin : joinNl (l1 :: rest) = p := by
    rw [← hsplit, joinNl_splitLines]
  have hne : is_heading p = false := by
    unfold is_heading
    rw [lstrip_eq_of_strip_eq htrim]
    cases hr : rest with
    | nil => exact absurd hr hrest
    | cons r2 rs =>
      rw [hr] at hjoin
      rw [← hjoin]
      simp only [joinNl]
      rw [startsWith_hashSpace_append_nl]
      exact hl1
  refine ⟨hne, ?_, ?_⟩
  · intro st hc hfit
    have hptok : ¬ p = pageBreakTok := by
      intro he
      have hnl := nl_mem_of_two_lines hsplit hrest
      rw [he] at hnl
      exact absurd hnl (by decide)
    have hh' : ¬ (is_heading p = true) := by
      rw [hne]
      simp
    have hover : ¬ (st.current ≠ [] ∧ st.current_len + p.length > TARGET_CHARS_PER_PAGE) := by
      intro hcon
      omega
    unfold packStep
    rw [if_neg hptok, if_neg hh', if_neg hover]
  · obtain ⟨l, hlmem, hlh⟩ := hlater
    have hlsplit : l ∈ splitLines p := by
      rw [hsplit]
      exact List.mem_cons_of_mem _ hlmem
    have hstripne : ¬ stripStr l = [] := by
      intro he
      rw [he] at hlh
      exact absurd hlh (by decide)
    refine ⟨lineToHtml (stripStr l), ?_, ?_⟩
    · unfold blockParts
      apply List.mem_filterMap.mpr
      refine ⟨l, hlsplit, ?_⟩
      show (if stripStr l = [] then none else some (lineToHtml (stripStr l))) =
        some (lineToHtml (stripStr l))
      rw [if_neg hstripne]
    · unfold lineToHtml
      rw [if_pos hlh]
      have hdecomp : "<h2 class=\"chapter-title\">".toList =
          "<h2".toList ++ " class=\"chapter-title\">".toList := by decide
      rw [hdecomp, List.append_assoc, List.append_assoc]
      unfold startsWith
      exact isPrefixOf_append_self _ _

/-- Witness for C8 at the paragraph `"intro\n# Head"`. -/
theorem claim_C8_witness :
    is_heading "intro\n# Head".toList = false ∧
    (∃ part ∈ blockParts "intro\n# Head".toList,
      startsWith "<h2".toList part = true) := by
  have h := claim_C8 "intro\n# Head".toList "intro".toList ["# Head".toList]
    (by decide) (by decide) (by decide) (by decide) (by decide)
  exact ⟨h.1, h.2.2⟩

/-- Claim C9: the inline renderer escapes first and applies emphasis
substitutions longest-marker-first: the scenario line renders with an
emphasis element around the escaped text, triple markers are not partially
consumed, and escaping happens before markup insertion. -/
theorem claim_C9 :
    inline_format "Hello *world*.".toList = "Hello <em>world</em>.".toList ∧
    inline_format "***x***".toList = "<strong><em>x</em></strong>".toList ∧
    inline_format "<*w*>".toList = "&lt;<em>w</em>&gt;".toList := by
  decide

/-- Claim C10: each codex identifier's occurrence list, after the
sort-and-dedup post-processing, is sorted by (lowercased book title, page)
and contains at most one record per (bookId, page) key. -/
theorem claim_C10 (lst : List RefRec) :
    List.Pairwise (fun a b => refLE a b = true) (processRefs lst) ∧
    List.Pairwise (fun a b => refKey a ≠ refKey b) (processRefs lst) := by
  haveI : IsTotal RefRec (fun a b => refLE a b = true) := ⟨refLE_total⟩
  haveI : IsTrans RefRec (fun a b => refLE a b = true) :=
    ⟨fun a b c h1 h2 => refLE_trans h1 h2⟩
  have hsorted : List.Sorted (fun a b => refLE a b = true)
      (List.insertionSort (fun a b => refLE a b = true) lst) :=
    List.sorted_insertionSort _ lst
  unfold processRefs
  exact ⟨List.Pairwise.sublist (dedupRefs_sublist _ _) hsorted, (dedupRefs_keys _ _).2⟩
